import Mathlib

/-!
# Verification of the hush dictation engine core

Shallow embedding of the segmentation / VAD / transcription-queue logic of
the hush repository, translated from `src/src/hooks/useRecording.ts`,
`src/src/utils/audioUtils.ts` and `src/electron/lib/whisper.ts`, together
with proofs settling the frozen claims about the natural-language spec.

Modelling conventions:
* JavaScript timestamps (`Date.now()`) are natural numbers (milliseconds).
  All guard comparisons in the source are of the form `a - b < k` or
  `a - b > k`; for `a ≥ b` truncated `Nat` subtraction agrees with
  JavaScript number subtraction, and for `a < b` the JavaScript difference
  is negative, so `a - b < k` is true there exactly as the truncated
  difference `0 < k` is, and `a - b > k` is false exactly as `0 > k` is.
  Hence `Nat` subtraction is a faithful model of every guard in the file.
* RMS volume values are rationals (the source compares them only with the
  literals 3.0, 5.0 and 8.0, so any ordered field model is faithful;
  rationals keep every comparison decidable/executable).
* A JavaScript number that may be `NaN`/non-finite is modelled as
  `Option ℝ`, with `none` for a non-finite result.
-/

namespace Hush

/-! ## Constants (from `useRecording.ts` lines 8-10 and 190-191, 250-251) -/

/-- `const LOW_VOLUME_THRESHOLD = 3.0` -/
def LOW_VOLUME_THRESHOLD : ℚ := 3

/-- `const SILENCE_THRESHOLD = 5.0` -/
def SILENCE_THRESHOLD : ℚ := 5

/-- `const SPEAKING_THRESHOLD = 8.0` -/
def SPEAKING_THRESHOLD : ℚ := 8

/-- `const MIN_SEGMENT_DURATION_MS = 400` -/
def MIN_SEGMENT_DURATION_MS : ℕ := 400

/-- `const MIN_FLUSH_INTERVAL_MS = 1000` -/
def MIN_FLUSH_INTERVAL_MS : ℕ := 1000

/-- The silence hang literal `1000` in `checkVolume`
(`now - silenceStartRef.current > 1000`). -/
def SILENCE_HANG_MS : ℕ := 1000

/-- `const MAX_SEGMENT_SIZE_BYTES = 5 * 1024 * 1024` -/
def MAX_SEGMENT_SIZE_BYTES : ℕ := 5 * 1024 * 1024

/-- `const MAX_SEGMENT_DURATION_MS = 30 * 60 * 1000` -/
def MAX_SEGMENT_DURATION_MS : ℕ := 30 * 60 * 1000

/-! ## Volume analyzer (`src/src/utils/audioUtils.ts`)

```js
export const calculateRMS = (dataArray: Uint8Array): number => {
    let sum = 0;
    for (let i = 0; i < dataArray.length; i++) {
        const amplitude = dataArray[i] - 128;
        sum += amplitude * amplitude;
    }
    return Math.sqrt(sum / dataArray.length);
};
```

A `Uint8Array` entry is a natural number `< 256`.  The loop computes
`Σ (xᵢ - 128)²` exactly (all intermediate values are integers well inside
the exact-double range).  For an empty array JavaScript evaluates
`0 / 0 = NaN` and `Math.sqrt(NaN) = NaN`, so the function returns `NaN`;
we model the result as `Option ℝ` with `none` for the non-finite case. -/

/-- The loop accumulator `sum = Σ (xᵢ - 128)²`, an exact integer. -/
def rmsSumSq (data : List ℕ) : ℤ :=
  (data.map (fun x => ((x : ℤ) - 128) * ((x : ℤ) - 128))).sum

/-- The argument of `Math.sqrt`: `sum / dataArray.length` evaluated in
JavaScript number arithmetic.  For the empty frame this is `0 / 0 = NaN`
(modelled `none`); otherwise it is an exact nonnegative rational (every
intermediate stays far inside the exact-double range: `sum ≤ 128² · n`).
`Math.sqrt` maps `NaN` to `NaN` and a finite `q ≥ 0` to `√q`, so the
function's return value is `NaN` exactly when this is `none`, and
`Real.sqrt` of the rational otherwise (up to the final rounding, which the
spec's real-valued reading ignores); theorems apply `Real.sqrt` to this
definition to speak about the returned RMS. -/
def calculateRMSmeanSq (data : List ℕ) : Option ℚ :=
  if data.length = 0 then none
  else some ((rmsSumSq data : ℚ) / (data.length : ℚ))

/-- `export const isSilence = (rms, threshold) => rms < threshold` (on
finite inputs, with the same rational model as the thresholds). -/
def isSilence (rms threshold : ℚ) : Bool :=
  rms < threshold

/-! ## Text normalizer (`processAudio`, `useRecording.ts` lines 117-129)

```js
let cleanedText = text;
// 1. Remove CJK characters if accidentally transcribed
cleanedText = cleanedText.replace(
  /[　-〿぀-ゟ゠-ヿ＀-￯一-龯]/g, '');
// 2. Remove repetitive word patterns (e.g., "the the the")
cleanedText = cleanedText.replace(/\b(\w+)( \1){2,}\b/gi, '$1');
cleanedText = cleanedText.trim();
```

Strings are modelled as `List Char`.  The filter chain is three stages:
character stripping, repeated-token collapsing, and whitespace trim. -/

/-- Membership in the stripped character class
`[　-〿぀-ゟ゠-ヿ＀-￯一-龯]`. -/
def isCJK (c : Char) : Bool :=
  (0x3000 ≤ c.toNat && c.toNat ≤ 0x303F) ||
  (0x3040 ≤ c.toNat && c.toNat ≤ 0x309F) ||
  (0x30A0 ≤ c.toNat && c.toNat ≤ 0x30FF) ||
  (0xFF00 ≤ c.toNat && c.toNat ≤ 0xFFEF) ||
  (0x4E00 ≤ c.toNat && c.toNat ≤ 0x9FAF)

/-- Stage 1: `replace(/[...]/g, '')` deletes every matching character. -/
def stripCJK (cs : List Char) : List Char :=
  cs.filter (fun c => !isCJK c)

/-- JavaScript `\w` (no `u` flag): `[A-Za-z0-9_]`. -/
def isWordChar (c : Char) : Bool :=
  (0x41 ≤ c.toNat && c.toNat ≤ 0x5A) ||   -- A-Z
  (0x61 ≤ c.toNat && c.toNat ≤ 0x7A) ||   -- a-z
  (0x30 ≤ c.toNat && c.toNat ≤ 0x39) ||   -- 0-9
  c = '_'

/-- ASCII lower-casing, the canonicalisation the `i` flag applies to the
`\w` alphabet (only `A`-`Z` have case variants inside `[A-Za-z0-9_]`). -/
def lowerChar (c : Char) : Char :=
  if 0x41 ≤ c.toNat && c.toNat ≤ 0x5A then Char.ofNat (c.toNat + 32) else c

def lowerList (cs : List Char) : List Char :=
  cs.map lowerChar

/-- Split off the maximal leading run of word characters (`\w+` at a
position; the regex engine can only keep a shorter capture if the next
pattern item matches, and in `\b(\w+)( \1){2,}\b` the item after the
capture is a space, which never matches the word character that would
follow a proper prefix — so the capture is always the maximal run). -/
def takeWord : List Char → List Char × List Char
  | [] => ([], [])
  | c :: cs =>
    if isWordChar c then
      let t := takeWord cs
      (c :: t.1, t.2)
    else ([], c :: cs)

/-- Count the maximal run of repetitions `( \1)` following a captured
token whose lower-casing is `lw`: each repetition is a single space
followed by a full word token equal to the capture up to case (the `i`
flag makes the backreference match case-insensitively).  A repetition
whose token continues with further word characters is rejected by the
final `\b` (the engine backtracks exactly that last repetition), so only
full-token repetitions count.  Returns the count and the remainder after
the last counted repetition. -/
def countRepsF (lw : List Char) : ℕ → List Char → ℕ × List Char
  | _, [] => (0, [])
  | 0, c :: cs => (0, c :: cs)
  | fuel + 1, c :: cs =>
    if c = ' ' ∧ (takeWord cs).1 ≠ [] ∧ lowerList (takeWord cs).1 = lw then
      ((countRepsF lw fuel (takeWord cs).2).1 + 1, (countRepsF lw fuel (takeWord cs).2).2)
    else (0, c :: cs)

/-- The rep scan proper.  The fuel argument of `countRepsF` is only a
structural-recursion bound: it strictly exceeds the distance the scan can
travel (`takeWord` never lengthens its remainder), so the fuel-exhausted
branch is unreachable from here. -/
def countReps (lw : List Char) (cs : List Char) : ℕ × List Char :=
  countRepsF lw cs.length cs

/-- Stage 2: `replace(/\b(\w+)( \1){2,}\b/gi, '$1')`.  The global scan
visits positions left to right; a match can only start at a word start
(leading `\b` plus `\w`), captures the maximal word token there, and is
successful exactly when at least two full-token repetitions follow; the
whole match is replaced by the captured first token (`$1`) and scanning
resumes after the match. -/
def collapseGoF : ℕ → List Char → List Char
  | _, [] => []
  | 0, c :: cs => c :: cs
  | fuel + 1, c :: cs =>
    if isWordChar c then
      -- here `takeWord (c :: cs) = (c :: (takeWord cs).1, (takeWord cs).2)`,
      -- written with the head split off
      if 2 ≤ (countReps (lowerList (c :: (takeWord cs).1)) (takeWord cs).2).1 then
        (c :: (takeWord cs).1) ++
          collapseGoF fuel (countReps (lowerList (c :: (takeWord cs).1)) (takeWord cs).2).2
      else
        (c :: (takeWord cs).1) ++ collapseGoF fuel (takeWord cs).2
    else c :: collapseGoF fuel cs

/-- The global scan.  As with `countRepsF`, the fuel is only a
structural-recursion bound, never exhausted when starting from the
input's length (the scan position advances at least one character per
step). -/
def collapseGo (cs : List Char) : List Char :=
  collapseGoF cs.length cs

/-- JavaScript `String.prototype.trim` whitespace class (WhiteSpace ∪
LineTerminator). -/
def isTrimWS (c : Char) : Bool :=
  c.toNat = 0x9 || c.toNat = 0xA || c.toNat = 0xB || c.toNat = 0xC ||
  c.toNat = 0xD || c.toNat = 0x20 || c.toNat = 0xA0 || c.toNat = 0x1680 ||
  (0x2000 ≤ c.toNat && c.toNat ≤ 0x200A) || c.toNat = 0x2028 ||
  c.toNat = 0x2029 || c.toNat = 0x202F || c.toNat = 0x205F ||
  c.toNat = 0x3000 || c.toNat = 0xFEFF

/-- Stage 3: `trim()`. -/
def trimList (cs : List Char) : List Char :=
  ((cs.dropWhile isTrimWS).reverse.dropWhile isTrimWS).reverse

/-- The whole normalizer chain of `processAudio` (strip, collapse, trim). -/
def normalizeList (cs : List Char) : List Char :=
  trimList (collapseGo (stripCJK cs))

/-- The normalizer on strings. -/
def normalizeText (s : String) : String :=
  String.mk (normalizeList s.data)

/-! ## Session state and `processAudio` (`useRecording.ts` lines 104-158) -/

/-- `type RecordingStatus = 'idle' | 'starting' | 'recording' | 'processing' | 'error'` -/
inductive RecStatus
  | idle
  | starting
  | recording
  | processing
  | error
deriving DecidableEq, Repr

/-- A task on the transcription queue: the blob handed to `processAudio`
plus the data captured at enqueue time.  The backend collaborator
(`window.electronAPI.transcribeAudio`) is modelled per task as the text it
eventually returns, or an error if the call rejects. -/
structure TranscriptionTask where
  blobSize : ℕ
  isSegment : Bool
  sessionMaxVolume : ℚ
  backend : Except Unit String
deriving Repr

/-- The React state `processAudio` touches, plus observable effect logs:
`pastes` records every `electronAPI.pasteText` invocation, and
`scheduled` records every `setTimeout(() => setStatus(v), d)` as `(d, v)`. -/
structure AppState where
  transcript : String
  wordCount : Option ℕ
  status : RecStatus
  pastes : List String
  scheduled : List (ℕ × RecStatus)
deriving DecidableEq, Repr

/-- `cleanedText.split(/\s+/).length` for a trimmed non-empty string: the
number of maximal non-whitespace runs (JavaScript `\s` is the same
whitespace class as `trim`; on a trimmed non-empty string the split has
neither leading nor trailing empty pieces). -/
def wordRunsAux : Bool → List Char → ℕ
  | _, [] => 0
  | afterWS, c :: cs =>
    if isTrimWS c then wordRunsAux true cs
    else (if afterWS then 1 else 0) + wordRunsAux false cs

def wordRuns (cs : List Char) : ℕ :=
  wordRunsAux true cs

/-- `processAudio(audioBlob, isSegment, sessionMaxVolume)`:

```js
try {
  if (isSegment && sessionMaxVolume < LOW_VOLUME_THRESHOLD) return;
  const data = await window.electronAPI.transcribeAudio(arrayBuffer);
  let cleanedText = ...normalizer chain...;
  if (cleanedText.length === 0) { if (!isSegment) setStatus('idle'); return; }
  if (typeof cleanedText === 'string') {
    const count = cleanedText.split(/\s+/).length;
    if (count > 0) {
      setWordCount((prev) => (prev || 0) + count);
      setTranscript((prev) => prev + (prev.length > 0 ? ' ' : '') + cleanedText);
      await window.electronAPI.pasteText(cleanedText + ' ', autoPasteRef.current);
    }
  }
  if (!isSegment) setStatus('idle');
} catch (error) {
  if (!isSegment) setStatus('error');
  setTimeout(() => setStatus('idle'), 3000);
}
```

Note the `setTimeout` in the catch block is outside the `if (!isSegment)`
guard: it is scheduled for segment tasks too. -/
def processAudio (t : TranscriptionTask) (s : AppState) : AppState :=
  if t.isSegment = true ∧ t.sessionMaxVolume < LOW_VOLUME_THRESHOLD then s
  else
    match t.backend with
    | .error _ =>
      let s1 := if t.isSegment = true then s else { s with status := RecStatus.error }
      { s1 with scheduled := s1.scheduled ++ [(3000, RecStatus.idle)] }
    | .ok text =>
      let cleanedText := normalizeText text
      if cleanedText.length = 0 then
        if t.isSegment = true then s else { s with status := RecStatus.idle }
      else
        let count := wordRuns cleanedText.data
        let s1 :=
          if 0 < count then
            { s with
              wordCount := some (s.wordCount.getD 0 + count),
              transcript :=
                s.transcript ++ (if 0 < s.transcript.length then " " else "") ++ cleanedText,
              pastes := s.pastes ++ [cleanedText ++ " "] }
          else s
        if t.isSegment = true then s1 else { s1 with status := RecStatus.idle }

/-! ## Transcription queue (`useRecording.ts` lines 57, 294-298, 318-320)

The queue is the promise chain
`transcriptionQueueRef.current = transcriptionQueueRef.current.then(cb)`.
A promise continuation runs only after the chained-on promise has
resolved, and the new tail resolves only when the continuation's
`await processAudio(...)` has fully completed (`processAudio` catches all
its errors, so every link fulfills and the chain is never broken).  The
standard shallow embedding of this chaining is sequential composition of
state transformers; each link also emits instrumentation events tagged
with its position in the chain, so ordering is observable. -/

/-- Observable phases of one queued task (`i` = enqueue position). -/
inductive QEvent
  | backendCall (i : ℕ)
  | normalizeDone (i : ℕ)
  | transcriptAppend (i : ℕ)
  | taskDone (i : ℕ)
deriving DecidableEq, Repr

/-- The enqueue position an event belongs to. -/
def qidx : QEvent → ℕ
  | QEvent.backendCall i => i
  | QEvent.normalizeDone i => i
  | QEvent.transcriptAppend i => i
  | QEvent.taskDone i => i

/-- The phases task `i` goes through (a function of the task alone: which
phases run never depends on the ambient React state).  A VAD segment task
whose blob is empty is the `if (blob.size > 0)` no-op continuation. -/
def taskEvents (i : ℕ) (t : TranscriptionTask) : List QEvent :=
  if t.isSegment = true ∧ t.blobSize = 0 then [QEvent.taskDone i]
  else if t.isSegment = true ∧ t.sessionMaxVolume < LOW_VOLUME_THRESHOLD then
    [QEvent.taskDone i]
  else
    match t.backend with
    | .error _ => [QEvent.backendCall i, QEvent.taskDone i]
    | .ok text =>
      [QEvent.backendCall i, QEvent.normalizeDone i] ++
        (if (normalizeText text).length ≠ 0 ∧ 0 < wordRuns (normalizeText text).data then
          [QEvent.transcriptAppend i] else []) ++
      [QEvent.taskDone i]

/-- One link of the chain: run the continuation, emit its phases. -/
def runQTask (i : ℕ) (t : TranscriptionTask) (s : AppState) : AppState × List QEvent :=
  (if t.isSegment = true ∧ t.blobSize = 0 then s else processAudio t s, taskEvents i t)

/-- A promise in the chain, as the state transformer it performs once its
predecessor has resolved, together with the events it emits. -/
def QProg :=
  AppState → AppState × List QEvent

/-- `Promise.resolve()` — the initial `transcriptionQueueRef.current`. -/
def qinit : QProg :=
  fun s => (s, [])

/-- `p.then(q)`: `q`'s transformer runs on the state `p` left behind, and
every event of `p` precedes every event of `q`. -/
def qthen (p q : QProg) : QProg :=
  fun s => ((q (p s).1).1, (p s).2 ++ (q (p s).1).2)

/-- The chain after enqueueing the indexed tasks in order. -/
def chainAll (its : List (ℕ × TranscriptionTask)) : QProg :=
  its.foldl (fun acc it => qthen acc (runQTask it.1 it.2)) qinit

/-- Enqueue a capture-ordered task list (positions are their enqueue
order, as `onstop` fires once per segment in capture order). -/
def enqueueAll (tasks : List TranscriptionTask) : QProg :=
  chainAll tasks.enum

/-! ## VAD / segment accumulator machine
(`useRecording.ts` lines 180-335: the closure state of `startRecording`)

The mutable closure variables and refs, plus ghost instrumentation fields
(marked `ghost`) that only record what happened and are never read by the
transition functions. -/

structure VadState where
  /-- `silenceStartRef.current : number | null` -/
  silenceStart : Option ℕ
  /-- `isSpeakingRef.current` -/
  isSpeaking : Bool
  /-- `maxVolumeRef.current` -/
  maxVolume : ℚ
  /-- `audioChunksRef.current`, as the byte size of each chunk -/
  audioChunks : List ℕ
  /-- closure `segmentStartTime` -/
  segmentStartTime : ℕ
  /-- closure `lastFlushTimeRef.current` -/
  lastFlushTime : ℕ
  /-- closure `lastActivityTimeRef.current` -/
  lastActivityTime : ℕ
  /-- closure `isFlushing` -/
  isFlushing : Bool
  /-- closure `isVadTriggered` -/
  isVadTriggered : Bool
  /-- `mediaRecorderRef.current.state === 'recording'` -/
  recRecording : Bool
  /-- `statusRef.current === 'recording'` (read by `onstop` to restart) -/
  statusIsRecording : Bool
  /-- ghost: `stop()` has been called and `onstop` has not fired yet -/
  pendingStop : Bool
  /-- ghost: number of `flushSegment()` invocations -/
  flushCalls : ℕ
  /-- ghost: number of `mediaRecorder.stop()` calls made by `flushSegment` -/
  stopsInitiated : ℕ
  /-- ghost: the time of the last such `stop()` call -/
  initTime : ℕ
  /-- ghost: tasks enqueued by `onstop`, as (blob bytes, session max volume, isFinal) -/
  tasks : List (ℕ × ℚ × Bool)
  /-- ghost: the times at which VAD-triggered flushes completed (`onstop` ran) -/
  completions : List ℕ
deriving DecidableEq, Repr

/-- `flushSegment()` at current time `now` (lines 193-226):

```js
const flushSegment = () => {
  if (isFlushing) return;
  const now = Date.now();
  const segmentDuration = now - segmentStartTime;
  const timeSinceLastFlush = now - lastFlushTimeRef.current;
  if (timeSinceLastFlush < MIN_FLUSH_INTERVAL_MS) return;
  if (segmentDuration < MIN_SEGMENT_DURATION_MS) return;
  const isSilence = maxVolumeRef.current < SILENCE_THRESHOLD;
  if (isSilence && !isSpeakingRef.current) {
    audioChunksRef.current = [];
    segmentStartTime = Date.now();
    lastFlushTimeRef.current = Date.now();
    maxVolumeRef.current = 0;
    return;
  }
  isFlushing = true;
  isVadTriggered = true;
  if (mediaRecorderRef.current && mediaRecorderRef.current.state === 'recording') {
    mediaRecorderRef.current.stop();
  } else {
    isFlushing = false;
    isVadTriggered = false;
  }
};
```
-/
def flushSegment (now : ℕ) (s : VadState) : VadState :=
  let s := { s with flushCalls := s.flushCalls + 1 }
  if s.isFlushing = true then s
  else
    let segmentDuration := now - s.segmentStartTime
    let timeSinceLastFlush := now - s.lastFlushTime
    if timeSinceLastFlush < MIN_FLUSH_INTERVAL_MS then s
    else if segmentDuration < MIN_SEGMENT_DURATION_MS then s
    else
      let silenceNow := s.maxVolume < SILENCE_THRESHOLD
      if silenceNow ∧ s.isSpeaking = false then
        { s with audioChunks := [], segmentStartTime := now, lastFlushTime := now,
                 maxVolume := 0 }
      else
        let s := { s with isFlushing := true, isVadTriggered := true }
        if s.recRecording = true then
          { s with recRecording := false, pendingStop := true,
                   stopsInitiated := s.stopsInitiated + 1, initTime := now }
        else
          { s with isFlushing := false, isVadTriggered := false }

/-- One `checkVolume` analysis tick (lines 228-267) at time `now` with the
frame's RMS `rms` (the `calculateRMS` output for the 2048-sample frame the
analyser delivers; the frame is device input, so the tick takes the RMS as
a parameter). -/
def checkVolume (rms : ℚ) (now : ℕ) (s : VadState) : VadState :=
  let s := if s.maxVolume < rms then { s with maxVolume := rms } else s
  let s := if LOW_VOLUME_THRESHOLD < rms then { s with lastActivityTime := now } else s
  let s :=
    if SPEAKING_THRESHOLD < rms then
      { s with silenceStart := none, isSpeaking := true }
    else
      -- `if (!silenceStartRef.current)`: JavaScript falsy = null or 0
      if s.silenceStart = none ∨ s.silenceStart = some 0 then
        { s with silenceStart := some now }
      else if SILENCE_HANG_MS < now - (s.silenceStart.getD 0) ∧ s.isSpeaking = true then
        flushSegment now s
      else s
  -- safety valve (lines 250-262), evaluated on the post-VAD state
  let currentSize := s.audioChunks.sum
  let segmentAge := now - s.segmentStartTime
  if (MAX_SEGMENT_SIZE_BYTES < currentSize ∨ MAX_SEGMENT_DURATION_MS < segmentAge) ∧
      s.audioChunks ≠ [] then
    flushSegment now { s with isSpeaking := true }
  else s

/-- `recorder.ondataavailable` (lines 274-278): push non-empty chunks. -/
def onData (size : ℕ) (s : VadState) : VadState :=
  if 0 < size then { s with audioChunks := s.audioChunks ++ [size] } else s

/-- `recorder.onstop` (lines 280-327) firing at time `now`.  `onstop` can
only fire after a `stop()` call, so a `stopDone` event with no pending
stop is ignored (no such event exists in the browser).  The VAD-triggered
branch resets the accumulator and VAD state, enqueues the blob as a
non-final task when non-empty, and restarts the recorder if the session
is still recording; the manual-stop branch enqueues the final task when
the blob is non-empty.  (Timer bookkeeping, `setDuration` and the
`setStatus('processing' | 'idle')` calls of the manual branch are UI state
outside this machine; the manual branch leaves `statusIsRecording` false
because both of its status updates are not `'recording'`.) -/
def onStop (now : ℕ) (s : VadState) : VadState :=
  if s.pendingStop = false then s
  else
    let blobSize := s.audioChunks.sum
    let sessionMaxVolume := s.maxVolume
    let s := { s with audioChunks := [], pendingStop := false }
    if s.isVadTriggered = true then
      let s := { s with
        isVadTriggered := false, isFlushing := false,
        lastFlushTime := now, segmentStartTime := now,
        silenceStart := none, isSpeaking := false, maxVolume := 0,
        tasks := if 0 < blobSize then s.tasks ++ [(blobSize, sessionMaxVolume, false)]
                 else s.tasks,
        completions := s.completions ++ [now] }
      if s.statusIsRecording = true then { s with recRecording := true } else s
    else
      { s with
        silenceStart := none, isSpeaking := false, maxVolume := 0,
        statusIsRecording := false,
        tasks := if 0 < blobSize then s.tasks ++ [(blobSize, sessionMaxVolume, true)]
                 else s.tasks }

/-- Events the capture side of a session processes: analysis ticks,
recorder data deliveries, and recorder stop completions. -/
inductive VEvent
  | frame (rms : ℚ) (now : ℕ)
  | data (size : ℕ)
  | stopDone (now : ℕ)
deriving DecidableEq, Repr

def stepV (s : VadState) : VEvent → VadState
  | VEvent.frame rms now => checkVolume rms now s
  | VEvent.data size => onData size s
  | VEvent.stopDone now => onStop now s

def runV (s : VadState) (es : List VEvent) : VadState :=
  es.foldl stepV s

/-- The closure state right after `startRecording` reaches
`mediaRecorderRef.current?.start(100)` at time `t0` (lines 180-191,
332-335). -/
def initV (t0 : ℕ) : VadState :=
  { silenceStart := none, isSpeaking := false, maxVolume := 0, audioChunks := [],
    segmentStartTime := t0, lastFlushTime := t0, lastActivityTime := t0,
    isFlushing := false, isVadTriggered := false, recRecording := true,
    statusIsRecording := true, pendingStop := false, flushCalls := 0,
    stopsInitiated := 0, initTime := 0, tasks := [], completions := [] }

/-! ## Toggle entry point (`useRecording.ts` lines 357-375) -/

/-- What a toggle invocation does to the recorder: nothing, call
`startRecording()`, or call `stopRecording()`. -/
inductive ToggleAction
  | nop
  | start
  | stop
deriving DecidableEq, Repr

/-- `handleToggle` reads `showSettings`, `isModelReadyRef`, the debounce
clock and `statusRef`; it writes only `lastToggleTimeRef` and dispatches
at most one of `startRecording` / `stopRecording`:

```js
const handleToggle = () => {
  if (showSettings || !isModelReadyRef.current) return;
  const now = Date.now();
  if (now - lastToggleTimeRef.current < 250) return;
  lastToggleTimeRef.current = now;
  if (statusRef.current === 'recording') stopRecording();
  else if (statusRef.current === 'idle') startRecording();
};
```

Returns the updated `lastToggleTimeRef.current` and the dispatched
action.  (`startRecording` itself additionally begins with
`if (statusRef.current !== 'idle') return;`.) -/
def handleToggle (showSettings isModelReady : Bool) (now : ℕ) (lastToggleTime : ℕ)
    (status : RecStatus) : ℕ × ToggleAction :=
  if showSettings = true ∨ isModelReady = false then (lastToggleTime, ToggleAction.nop)
  else if now - lastToggleTime < 250 then (lastToggleTime, ToggleAction.nop)
  else if status = RecStatus.recording then (now, ToggleAction.stop)
  else if status = RecStatus.idle then (now, ToggleAction.start)
  else (now, ToggleAction.nop)

/-! ## Trace-shape predicates (hypothesis vocabulary for the temporal
claims; all executable so concrete traces can be checked by `decide`) -/

/-- Total bytes delivered by the `data` events of a trace. -/
def dataTotal (es : List VEvent) : ℕ :=
  (es.map fun e => match e with | VEvent.data k => k | _ => 0).sum

/-- Every analysis frame of the trace has RMS at most `q`. -/
def framesBelowB (q : ℚ) (es : List VEvent) : Bool :=
  es.all fun e => match e with | VEvent.frame r _ => decide (r ≤ q) | _ => true

/-- Every analysis frame of the trace happens no later than `m`. -/
def frameTimesLEB (m : ℕ) (es : List VEvent) : Bool :=
  es.all fun e => match e with | VEvent.frame _ n => decide (n ≤ m) | _ => true

/-- The timestamps carried by the trace's events are at least `T` and
nondecreasing (wall-clock time during one session). -/
def timedMonoB : ℕ → List VEvent → Bool
  | _, [] => true
  | T, VEvent.frame _ n :: es => decide (T ≤ n) && timedMonoB n es
  | T, VEvent.data _ :: es => timedMonoB T es
  | T, VEvent.stopDone n :: es => decide (T ≤ n) && timedMonoB n es

/-- The time of the first analysis frame of a trace, if any. -/
def firstFrameTime : List VEvent → Option ℕ
  | [] => none
  | VEvent.frame _ n :: _ => some n
  | VEvent.data _ :: es => firstFrameTime es
  | VEvent.stopDone _ :: es => firstFrameTime es

/-- Some analysis frame of the trace happens strictly later than
`u + SILENCE_HANG_MS`. -/
def hasLateFrameB (u : ℕ) (es : List VEvent) : Bool :=
  es.any fun e =>
    match e with | VEvent.frame _ n => decide (u + SILENCE_HANG_MS < n) | _ => false

/-- Invariant for the inter-flush spacing argument: completed VAD flush
times are spaced by at least `MIN_FLUSH_INTERVAL_MS`, every completion is
no later than `lastFlushTime`, all recorded clocks are within the current
wall-clock bound `T`, and a pending stop was initiated at least
`MIN_FLUSH_INTERVAL_MS` after every completion. -/
def SpacingInv (T : ℕ) (s : VadState) : Prop :=
  List.Chain' (fun a b => a + MIN_FLUSH_INTERVAL_MS ≤ b) s.completions ∧
  (∀ c ∈ s.completions, c ≤ s.lastFlushTime) ∧
  s.lastFlushTime ≤ T ∧
  (s.pendingStop = true → s.isFlushing = true ∧ s.isVadTriggered = true ∧
    (∀ c ∈ s.completions, c + MIN_FLUSH_INTERVAL_MS ≤ s.initTime) ∧ s.initTime ≤ T)

/-! # Supporting lemmas -/

theorem takeWord_snd_length (cs : List Char) : (takeWord cs).2.length ≤ cs.length := by
  induction cs with
  | nil => simp [takeWord]
  | cons c cs ih =>
    simp only [takeWord]
    by_cases h : isWordChar c = true
    · simp [h]; omega
    · simp [h]

theorem takeWord_append_self (cs : List Char) : (takeWord cs).1 ++ (takeWord cs).2 = cs := by
  induction cs with
  | nil => simp [takeWord]
  | cons c cs ih =>
    simp only [takeWord]
    by_cases h : isWordChar c = true
    · simp [h, ih]
    · simp [h]

/-! Fuel irrelevance and unfolding equations for the fuel-based scans. -/

theorem countRepsF_irrel (lw : List Char) :
    ∀ (n f g : ℕ) (cs : List Char), cs.length ≤ n → cs.length ≤ f → cs.length ≤ g →
    countRepsF lw f cs = countRepsF lw g cs := by
  intro n
  induction n with
  | zero =>
    intro f g cs hn _ _
    have : cs = [] := List.length_eq_zero.mp (Nat.le_zero.mp hn)
    subst this
    simp [countRepsF]
  | succ n ih =>
    intro f g cs hn hf hg
    cases cs with
    | nil => simp [countRepsF]
    | cons c cs =>
      simp only [List.length_cons] at hn hf hg
      cases f with
      | zero => omega
      | succ f =>
        cases g with
        | zero => omega
        | succ g =>
          simp only [countRepsF]
          have hlen : (takeWord cs).2.length ≤ cs.length := takeWord_snd_length cs
          rw [ih f g (takeWord cs).2 (by omega) (by omega) (by omega)]

theorem countReps_cons (lw : List Char) (c : Char) (cs : List Char) :
    countReps lw (c :: cs) =
      if c = ' ' ∧ (takeWord cs).1 ≠ [] ∧ lowerList (takeWord cs).1 = lw then
        ((countReps lw (takeWord cs).2).1 + 1, (countReps lw (takeWord cs).2).2)
      else (0, c :: cs) := by
  unfold countReps
  simp only [List.length_cons, countRepsF]
  have hlen : (takeWord cs).2.length ≤ cs.length := takeWord_snd_length cs
  rw [countRepsF_irrel lw (takeWord cs).2.length cs.length (takeWord cs).2.length
    (takeWord cs).2 (le_refl _) hlen (le_refl _)]

theorem countReps_snd_length (lw : List Char) :
    ∀ (n : ℕ) (cs : List Char), cs.length ≤ n →
    (countReps lw cs).2.length ≤ cs.length := by
  intro n
  induction n with
  | zero =>
    intro cs hn
    have : cs = [] := List.length_eq_zero.mp (Nat.le_zero.mp hn)
    subst this
    simp [countReps, countRepsF]
  | succ n ih =>
    intro cs hn
    cases cs with
    | nil => simp [countReps, countRepsF]
    | cons c cs =>
      rw [countReps_cons]
      split_ifs with h
      · have h1 : (takeWord cs).2.length ≤ cs.length := takeWord_snd_length cs
        have h2 := ih (takeWord cs).2 (by simp at hn; omega)
        simp only [List.length_cons]
        omega
      · simp

theorem collapseGoF_irrel :
    ∀ (n f g : ℕ) (cs : List Char), cs.length ≤ n → cs.length ≤ f → cs.length ≤ g →
    collapseGoF f cs = collapseGoF g cs := by
  intro n
  induction n with
  | zero =>
    intro f g cs hn _ _
    have : cs = [] := List.length_eq_zero.mp (Nat.le_zero.mp hn)
    subst this
    simp [collapseGoF]
  | succ n ih =>
    intro f g cs hn hf hg
    cases cs with
    | nil => simp [collapseGoF]
    | cons c cs =>
      simp only [List.length_cons] at hn hf hg
      cases f with
      | zero => omega
      | succ f =>
        cases g with
        | zero => omega
        | succ g =>
          simp only [collapseGoF]
          have hlen : (takeWord cs).2.length ≤ cs.length := takeWord_snd_length cs
          have hlen2 : (countReps (lowerList (c :: (takeWord cs).1)) (takeWord cs).2).2.length ≤
              (takeWord cs).2.length :=
            countReps_snd_length _ (takeWord cs).2.length _ (le_refl _)
          rw [ih f g (takeWord cs).2 (by omega) (by omega) (by omega),
            ih f g (countReps (lowerList (c :: (takeWord cs).1)) (takeWord cs).2).2
              (by omega) (by omega) (by omega),
            ih f g cs (by omega) (by omega) (by omega)]

theorem collapseGo_cons (c : Char) (cs : List Char) :
    collapseGo (c :: cs) =
      if isWordChar c then
        if 2 ≤ (countReps (lowerList (c :: (takeWord cs).1)) (takeWord cs).2).1 then
          (c :: (takeWord cs).1) ++
            collapseGo (countReps (lowerList (c :: (takeWord cs).1)) (takeWord cs).2).2
        else
          (c :: (takeWord cs).1) ++ collapseGo (takeWord cs).2
      else c :: collapseGo cs := by
  unfold collapseGo
  simp only [List.length_cons, collapseGoF]
  have hlen : (takeWord cs).2.length ≤ cs.length := takeWord_snd_length cs
  have hlen2 : (countReps (lowerList (c :: (takeWord cs).1)) (takeWord cs).2).2.length ≤
      (takeWord cs).2.length :=
    countReps_snd_length _ (takeWord cs).2.length _ (le_refl _)
  rw [collapseGoF_irrel cs.length cs.length (takeWord cs).2.length (takeWord cs).2
      hlen hlen (le_refl _),
    collapseGoF_irrel (countReps (lowerList (c :: (takeWord cs).1)) (takeWord cs).2).2.length
      cs.length (countReps (lowerList (c :: (takeWord cs).1)) (takeWord cs).2).2.length
      (countReps (lowerList (c :: (takeWord cs).1)) (takeWord cs).2).2
      (le_refl _) (by omega) (le_refl _)]

/-! `takeWord` structure facts. -/

theorem takeWord_fst_word (cs : List Char) : ∀ c ∈ (takeWord cs).1, isWordChar c = true := by
  induction cs with
  | nil => simp [takeWord]
  | cons c cs ih =>
    simp only [takeWord]
    by_cases h : isWordChar c = true
    · simp only [h, if_pos]
      intro d hd
      simp only [List.mem_cons] at hd
      rcases hd with rfl | hd
      · exact h
      · exact ih d hd
    · simp [h]

theorem takeWord_snd_headNonWord (cs : List Char) :
    ∀ d l2, (takeWord cs).2 = d :: l2 → isWordChar d = false := by
  induction cs with
  | nil => simp [takeWord]
  | cons c cs ih =>
    simp only [takeWord]
    by_cases h : isWordChar c = true
    · simp only [h, if_pos]
      exact ih
    · rw [if_neg h]
      intro d l2 hd
      cases hd
      simpa using h

theorem takeWord_append (y X : List Char)
    (hX : ∀ d l2, X = d :: l2 → isWordChar d = false) :
    takeWord (y ++ X) = ((takeWord y).1, (takeWord y).2 ++ X) := by
  induction y with
  | nil =>
    cases X with
    | nil => simp [takeWord]
    | cons d l2 =>
      have := hX d l2 rfl
      simp [takeWord, this]
  | cons c y ih =>
    simp only [List.cons_append, takeWord]
    by_cases h : isWordChar c = true
    · simp [h, ih]
    · simp [h]

theorem takeWord_of_allWord (y : List Char) (hy : ∀ c ∈ y, isWordChar c = true) :
    takeWord y = (y, []) := by
  induction y with
  | nil => simp [takeWord]
  | cons c y ih =>
    simp only [takeWord]
    rw [if_pos (hy c (by simp)), ih (fun d hd => hy d (by simp [hd]))]

theorem takeWord_token (y X : List Char) (hy : ∀ c ∈ y, isWordChar c = true)
    (hX : ∀ d l2, X = d :: l2 → isWordChar d = false) :
    takeWord (y ++ X) = (y, X) := by
  rw [takeWord_append y X hX, takeWord_of_allWord y hy]
  rfl

/-! `countReps` facts: where the rep scan stops, and what the remainder
looks like. -/

theorem countReps_zero_of_noRep (lw : List Char) (l : List Char)
    (h : ¬ ∃ r, l = ' ' :: r ∧ (takeWord r).1 ≠ [] ∧ lowerList (takeWord r).1 = lw) :
    countReps lw l = (0, l) := by
  cases l with
  | nil => rfl
  | cons c cs =>
    rw [countReps_cons]
    rw [if_neg]
    rintro ⟨hc, h1, h2⟩
    exact h ⟨cs, by rw [hc], h1, h2⟩

theorem noRep_of_countReps_zero (lw : List Char) (l : List Char)
    (h : (countReps lw l).1 = 0) :
    ¬ ∃ r, l = ' ' :: r ∧ (takeWord r).1 ≠ [] ∧ lowerList (takeWord r).1 = lw := by
  rintro ⟨r, rfl, h1, h2⟩
  rw [countReps_cons, if_pos ⟨rfl, h1, h2⟩] at h
  simp at h

theorem countReps_stop (lw : List Char) :
    ∀ (n : ℕ) (l : List Char), l.length ≤ n →
    ¬ ∃ r, (countReps lw l).2 = ' ' :: r ∧ (takeWord r).1 ≠ [] ∧
      lowerList (takeWord r).1 = lw := by
  intro n
  induction n with
  | zero =>
    intro l hn
    have : l = [] := List.length_eq_zero.mp (Nat.le_zero.mp hn)
    subst this
    rintro ⟨r, hr, -, -⟩
    simp [countReps, countRepsF] at hr
  | succ n ih =>
    intro l hn
    cases l with
    | nil =>
      rintro ⟨r, hr, -, -⟩
      simp [countReps, countRepsF] at hr
    | cons c cs =>
      rw [countReps_cons]
      split_ifs with h
      · exact ih (takeWord cs).2 (by
          have := takeWord_snd_length cs
          simp only [List.length_cons] at hn
          omega)
      · rintro ⟨r, hr, h1, h2⟩
        cases hr
        exact h ⟨rfl, h1, h2⟩

theorem countReps_rem_headNonWord (lw : List Char) :
    ∀ (n : ℕ) (l : List Char), l.length ≤ n →
    (∀ d l2, l = d :: l2 → isWordChar d = false) →
    ∀ d l2, (countReps lw l).2 = d :: l2 → isWordChar d = false := by
  intro n
  induction n with
  | zero =>
    intro l hn _
    have : l = [] := List.length_eq_zero.mp (Nat.le_zero.mp hn)
    subst this
    simp [countReps, countRepsF]
  | succ n ih =>
    intro l hn hl
    cases l with
    | nil => simp [countReps, countRepsF]
    | cons c cs =>
      rw [countReps_cons]
      split_ifs with h
      · exact ih (takeWord cs).2 (by
          have := takeWord_snd_length cs
          simp only [List.length_cons] at hn
          omega) (takeWord_snd_headNonWord cs)
      · exact hl

theorem countReps_rem_subset (lw : List Char) :
    ∀ (n : ℕ) (l : List Char), l.length ≤ n →
    ∀ c ∈ (countReps lw l).2, c ∈ l := by
  intro n
  induction n with
  | zero =>
    intro l hn
    have : l = [] := List.length_eq_zero.mp (Nat.le_zero.mp hn)
    subst this
    simp [countReps, countRepsF]
  | succ n ih =>
    intro l hn
    cases l with
    | nil => simp [countReps, countRepsF]
    | cons c cs =>
      rw [countReps_cons]
      split_ifs with h
      · intro d hd
        have hsub := ih (takeWord cs).2 (by
          have := takeWord_snd_length cs
          simp only [List.length_cons] at hn
          omega) d hd
        have : d ∈ (takeWord cs).1 ++ (takeWord cs).2 := List.mem_append_right _ hsub
        rw [takeWord_append_self] at this
        simp [this]
      · simp

theorem countReps_append_noWord (lw : List Char) :
    ∀ (n : ℕ) (r q : List Char), r.length ≤ n →
    (∀ c ∈ q, isWordChar c = false) →
    countReps lw (r ++ q) = ((countReps lw r).1, (countReps lw r).2 ++ q) := by
  intro n
  induction n with
  | zero =>
    intro r q hn hq
    have : r = [] := List.length_eq_zero.mp (Nat.le_zero.mp hn)
    subst this
    simp only [List.nil_append]
    cases q with
    | nil => rfl
    | cons d q2 =>
      rw [countReps_cons, if_neg]
      · rfl
      · rintro ⟨hd, h1, h2⟩
        cases q2 with
        | nil => simp [takeWord] at h1
        | cons e q3 =>
          have he : isWordChar e = false := hq e (by simp)
          simp [takeWord, he] at h1
  | succ n ih =>
    intro r q hn hq
    cases r with
    | nil =>
      exact ih [] q (by simp) hq
    | cons c cs =>
      have hqh : ∀ d l2, q = d :: l2 → isWordChar d = false := by
        intro d l2 hdq
        exact hq d (by rw [hdq]; simp)
      simp only [List.cons_append]
      rw [countReps_cons, countReps_cons, takeWord_append cs q hqh]
      simp only [List.length_cons] at hn
      have hlen := takeWord_snd_length cs
      split_ifs with h
      · rw [ih (takeWord cs).2 q (by omega) hq]
      · rfl

/-! `collapseGo` structural facts: the scan preserves the head character,
the first token, membership, and the absence of a leading repetition. -/

theorem collapseGo_head (d : Char) (l2 : List Char) :
    ∃ l3, collapseGo (d :: l2) = d :: l3 := by
  rw [collapseGo_cons]
  split_ifs with h1 h2 <;> exact ⟨_, rfl⟩

theorem collapseGo_headNonWord (l : List Char)
    (hl : ∀ d l2, l = d :: l2 → isWordChar d = false) :
    ∀ d l2, collapseGo l = d :: l2 → isWordChar d = false := by
  cases l with
  | nil =>
    intro d l2 h
    simp [collapseGo, collapseGoF] at h
  | cons c cs =>
    obtain ⟨l3, he⟩ := collapseGo_head c cs
    intro d l2 h
    rw [he] at h
    cases h
    exact hl c cs rfl

theorem mem_cs_of_mem_takeWord_fst {d : Char} {cs : List Char}
    (h : d ∈ (takeWord cs).1) : d ∈ cs := by
  have : d ∈ (takeWord cs).1 ++ (takeWord cs).2 := List.mem_append_left _ h
  rwa [takeWord_append_self] at this

theorem mem_cs_of_mem_takeWord_snd {d : Char} {cs : List Char}
    (h : d ∈ (takeWord cs).2) : d ∈ cs := by
  have : d ∈ (takeWord cs).1 ++ (takeWord cs).2 := List.mem_append_right _ h
  rwa [takeWord_append_self] at this

theorem collapseGo_subset :
    ∀ (n : ℕ) (l : List Char), l.length ≤ n → ∀ c ∈ collapseGo l, c ∈ l := by
  intro n
  induction n with
  | zero =>
    intro l hn
    have : l = [] := List.length_eq_zero.mp (Nat.le_zero.mp hn)
    subst this
    simp [collapseGo, collapseGoF]
  | succ n ih =>
    intro l hn
    cases l with
    | nil => simp [collapseGo, collapseGoF]
    | cons c cs =>
      simp only [List.length_cons] at hn
      have hlen := takeWord_snd_length cs
      rw [collapseGo_cons]
      split_ifs with h1 h2
      · intro d hd
        rcases List.mem_append.mp hd with hd | hd
        · rcases List.mem_cons.mp hd with rfl | hd2
          · exact List.mem_cons_self _ _
          · exact List.mem_cons.mpr (Or.inr (mem_cs_of_mem_takeWord_fst hd2))
        · have hrem := ih _ (by
            have := countReps_snd_length (lowerList (c :: (takeWord cs).1))
              (takeWord cs).2.length (takeWord cs).2 (le_refl _)
            omega) d hd
          have h2 := countReps_rem_subset (lowerList (c :: (takeWord cs).1))
            (takeWord cs).2.length (takeWord cs).2 (le_refl _) d hrem
          exact List.mem_cons.mpr (Or.inr (mem_cs_of_mem_takeWord_snd h2))
      · intro d hd
        rcases List.mem_append.mp hd with hd | hd
        · rcases List.mem_cons.mp hd with rfl | hd2
          · exact List.mem_cons_self _ _
          · exact List.mem_cons.mpr (Or.inr (mem_cs_of_mem_takeWord_fst hd2))
        · have hrem := ih _ (by omega) d hd
          exact List.mem_cons.mpr (Or.inr (mem_cs_of_mem_takeWord_snd hrem))
      · intro d hd
        rcases List.mem_cons.mp hd with rfl | hd2
        · exact List.mem_cons_self _ _
        · exact List.mem_cons.mpr (Or.inr (ih cs (by omega) d hd2))

theorem collapseGo_firstToken (l : List Char) :
    (takeWord (collapseGo l)).1 = (takeWord l).1 := by
  cases l with
  | nil => simp [collapseGo, collapseGoF]
  | cons c cs =>
    rw [collapseGo_cons]
    by_cases hw : isWordChar c = true
    · rw [if_pos hw]
      have hword : ∀ x ∈ c :: (takeWord cs).1, isWordChar x = true := by
        intro x hx
        rcases List.mem_cons.mp hx with rfl | hx2
        · exact hw
        · exact takeWord_fst_word cs x hx2
      split_ifs with h2
      · have hXh : ∀ d l2,
            collapseGo (countReps (lowerList (c :: (takeWord cs).1)) (takeWord cs).2).2 =
              d :: l2 → isWordChar d = false :=
          collapseGo_headNonWord _
            (countReps_rem_headNonWord _ (takeWord cs).2.length _ (le_refl _)
              (takeWord_snd_headNonWord cs))
        rw [takeWord_token _ _ hword hXh]
        simp [takeWord, hw]
      · have hXh : ∀ d l2, collapseGo (takeWord cs).2 = d :: l2 → isWordChar d = false :=
          collapseGo_headNonWord _ (takeWord_snd_headNonWord cs)
        rw [takeWord_token _ _ hword hXh]
        simp [takeWord, hw]
    · rw [if_neg hw]
      have hwf : isWordChar c = false := by simpa using hw
      simp [takeWord, hwf]

theorem collapseGo_token_step (t X : List Char) (ht : t ≠ [])
    (hw : ∀ c ∈ t, isWordChar c = true)
    (hX : ∀ d l2, X = d :: l2 → isWordChar d = false)
    (hcnt : (countReps (lowerList t) X).1 < 2) :
    collapseGo (t ++ X) = t ++ collapseGo X := by
  cases t with
  | nil => exact absurd rfl ht
  | cons c t2 =>
    simp only [List.cons_append]
    rw [collapseGo_cons, if_pos (hw c (List.mem_cons_self _ _))]
    have htw : takeWord (t2 ++ X) = (t2, X) :=
      takeWord_token t2 X (fun d hd => hw d (List.mem_cons.mpr (Or.inr hd))) hX
    simp only [htw]
    rw [if_neg (by omega)]
    rfl

theorem collapseGo_noRep (lw : List Char) (l : List Char)
    (h : ¬ ∃ r, l = ' ' :: r ∧ (takeWord r).1 ≠ [] ∧ lowerList (takeWord r).1 = lw) :
    ¬ ∃ r, collapseGo l = ' ' :: r ∧ (takeWord r).1 ≠ [] ∧
      lowerList (takeWord r).1 = lw := by
  cases l with
  | nil =>
    rintro ⟨r, hr, -, -⟩
    simp [collapseGo, collapseGoF] at hr
  | cons c cs =>
    obtain ⟨l3, he⟩ := collapseGo_head c cs
    by_cases hc : c = ' '
    · subst hc
      have hcons : collapseGo (' ' :: cs) = ' ' :: collapseGo cs := by
        rw [collapseGo_cons, if_neg (by decide)]
      rintro ⟨r, hr, h1, h2⟩
      rw [hcons] at hr
      have hrr : r = collapseGo cs := by
        injection hr with _ h
        exact h.symm
      subst hrr
      rw [collapseGo_firstToken] at h1 h2
      exact h ⟨cs, rfl, h1, h2⟩
    · rintro ⟨r, hr, -, -⟩
      rw [he] at hr
      injection hr with hch _
      exact hc hch

theorem collapseGo_count_le_one (lw : List Char) (l : List Char)
    (hl : ∀ d l2, l = d :: l2 → isWordChar d = false)
    (hc : (countReps lw l).1 ≤ 1) :
    (countReps lw (collapseGo l)).1 ≤ 1 := by
  cases l with
  | nil => simp [collapseGo, collapseGoF, countReps, countRepsF]
  | cons c cs =>
    have hcw : isWordChar c = false := hl c cs rfl
    have hcons : collapseGo (c :: cs) = c :: collapseGo cs := by
      rw [collapseGo_cons, if_neg (by simp [hcw])]
    rw [hcons]
    by_cases hsp : c = ' '
    · subst hsp
      rw [countReps_cons] at hc
      split_ifs at hc with h
      · simp only at hc
        have hcnt0 : (countReps lw (takeWord cs).2).1 = 0 := by omega
        have hnr := noRep_of_countReps_zero lw (takeWord cs).2 hcnt0
        have hrest2h := takeWord_snd_headNonWord cs
        have hstep : collapseGo cs = (takeWord cs).1 ++ collapseGo (takeWord cs).2 := by
          have hts := collapseGo_token_step (takeWord cs).1 (takeWord cs).2 h.2.1
            (takeWord_fst_word cs) hrest2h
            (by rw [h.2.2]; omega)
          rwa [takeWord_append_self] at hts
        rw [hstep]
        have hXh : ∀ d l2, collapseGo (takeWord cs).2 = d :: l2 → isWordChar d = false :=
          collapseGo_headNonWord _ hrest2h
        have htw : takeWord ((takeWord cs).1 ++ collapseGo (takeWord cs).2) =
            ((takeWord cs).1, collapseGo (takeWord cs).2) :=
          takeWord_token _ _ (takeWord_fst_word cs) hXh
        rw [countReps_cons, if_pos ⟨rfl, by rw [htw]; exact h.2.1, by rw [htw]; exact h.2.2⟩]
        simp only [htw]
        have hnr2 := collapseGo_noRep lw (takeWord cs).2 hnr
        have := countReps_zero_of_noRep lw (collapseGo (takeWord cs).2) hnr2
        rw [this]
      · rw [countReps_cons, if_neg]
        · simp
        · rintro ⟨-, h1, h2⟩
          rw [collapseGo_firstToken] at h1 h2
          exact h ⟨rfl, h1, h2⟩
    · rw [countReps_cons, if_neg (by rintro ⟨hcsp, -, -⟩; exact hsp hcsp)]
      simp

theorem collapseGo_idem :
    ∀ (n : ℕ) (l : List Char), l.length ≤ n →
    collapseGo (collapseGo l) = collapseGo l := by
  intro n
  induction n with
  | zero =>
    intro l hn
    have : l = [] := List.length_eq_zero.mp (Nat.le_zero.mp hn)
    subst this
    simp [collapseGo, collapseGoF]
  | succ n ih =>
    intro l hn
    cases l with
    | nil => simp [collapseGo, collapseGoF]
    | cons c cs =>
      simp only [List.length_cons] at hn
      have hlen := takeWord_snd_length cs
      rw [collapseGo_cons]
      by_cases hw : isWordChar c = true
      · rw [if_pos hw]
        have hword : ∀ x ∈ c :: (takeWord cs).1, isWordChar x = true := by
          intro x hx
          rcases List.mem_cons.mp hx with rfl | hx2
          · exact hw
          · exact takeWord_fst_word cs x hx2
        split_ifs with h2
        · have hremlen : (countReps (lowerList (c :: (takeWord cs).1)) (takeWord cs).2).2.length ≤
              (takeWord cs).2.length :=
            countReps_snd_length _ (takeWord cs).2.length _ (le_refl _)
          have hremh : ∀ d l2,
              (countReps (lowerList (c :: (takeWord cs).1)) (takeWord cs).2).2 = d :: l2 →
                isWordChar d = false :=
            countReps_rem_headNonWord _ (takeWord cs).2.length _ (le_refl _)
              (takeWord_snd_headNonWord cs)
          have hXh : ∀ d l2,
              collapseGo (countReps (lowerList (c :: (takeWord cs).1)) (takeWord cs).2).2 =
                d :: l2 → isWordChar d = false :=
            collapseGo_headNonWord _ hremh
          have hstop := countReps_stop (lowerList (c :: (takeWord cs).1))
            (takeWord cs).2.length (takeWord cs).2 (le_refl _)
          have hrem0 : ¬ ∃ r,
              (countReps (lowerList (c :: (takeWord cs).1)) (takeWord cs).2).2 = ' ' :: r ∧
              (takeWord r).1 ≠ [] ∧
              lowerList (takeWord r).1 = lowerList (c :: (takeWord cs).1) := hstop
          have hnr2 := collapseGo_noRep _ _ hrem0
          have hcnt0 := countReps_zero_of_noRep _ _ hnr2
          rw [collapseGo_token_step (c :: (takeWord cs).1) _ (by simp) hword hXh
            (by rw [hcnt0]; omega)]
          rw [ih _ (by omega)]
        · have hcnt1 : (countReps (lowerList (c :: (takeWord cs).1))
              (collapseGo (takeWord cs).2)).1 ≤ 1 :=
            collapseGo_count_le_one _ _ (takeWord_snd_headNonWord cs) (by omega)
          have hXh : ∀ d l2, collapseGo (takeWord cs).2 = d :: l2 → isWordChar d = false :=
            collapseGo_headNonWord _ (takeWord_snd_headNonWord cs)
          rw [collapseGo_token_step (c :: (takeWord cs).1) _ (by simp) hword hXh
            (by omega)]
          rw [ih _ (by omega)]
      · rw [if_neg hw]
        have hcons : collapseGo (c :: collapseGo cs) = c :: collapseGo (collapseGo cs) := by
          rw [collapseGo_cons, if_neg hw]
        rw [hcons, ih cs (by omega)]

/-! Whitespace / trim facts and the `collapseGo`-trim interplay. -/

theorem ws_not_word (c : Char) (h : isTrimWS c = true) : isWordChar c = false := by
  by_contra hw
  have hw2 : isWordChar c = true := by revert hw; cases isWordChar c <;> simp
  simp only [isWordChar, Bool.or_eq_true, Bool.and_eq_true, decide_eq_true_eq] at hw2
  simp only [isTrimWS, Bool.or_eq_true, Bool.and_eq_true, decide_eq_true_eq] at h
  have hw3 : (65 ≤ c.toNat ∧ c.toNat ≤ 90) ∨ (97 ≤ c.toNat ∧ c.toNat ≤ 122) ∨
      (48 ≤ c.toNat ∧ c.toNat ≤ 57) ∨ c.toNat = 95 := by
    rcases hw2 with h1 | h1
    · rcases h1 with h1 | h1
      · rcases h1 with h1 | h1
        · exact Or.inl h1
        · exact Or.inr (Or.inl h1)
      · exact Or.inr (Or.inr (Or.inl h1))
    · exact Or.inr (Or.inr (Or.inr (by rw [h1]; rfl)))
  omega

theorem dropWhile_head_false (p : Char → Bool) :
    ∀ (x : List Char) d r, x.dropWhile p = d :: r → p d = false := by
  intro x
  induction x with
  | nil =>
    intro d r h
    simp [List.dropWhile] at h
  | cons c x ih =>
    intro d r h
    rw [List.dropWhile_cons] at h
    split_ifs at h with hc
    · exact ih d r h
    · cases h
      simpa using hc

theorem dropWhile_fix (p : Char → Bool) (x : List Char)
    (h : ∀ d r, x = d :: r → p d = false) : x.dropWhile p = x := by
  cases x with
  | nil => rfl
  | cons c x => rw [List.dropWhile_cons, if_neg (by simp [h c x rfl])]

theorem getLast_dropWhile_opt (p : Char → Bool) :
    ∀ (x : List Char), (x.dropWhile p).getLast? = x.getLast? ∨ x.dropWhile p = [] := by
  intro x
  induction x with
  | nil => right; rfl
  | cons c x ih =>
    rw [List.dropWhile_cons]
    split_ifs with hc
    · rcases ih with h | h
      · cases x with
        | nil => right; rfl
        | cons a t =>
          left
          rw [h, List.getLast?_cons_cons]
      · right; exact h
    · left; rfl

theorem mem_dropWhile (p : Char → Bool) :
    ∀ (x : List Char) c, c ∈ x.dropWhile p → c ∈ x := by
  intro x
  induction x with
  | nil => simp [List.dropWhile]
  | cons a x ih =>
    intro c h
    rw [List.dropWhile_cons] at h
    split_ifs at h with ha
    · exact List.mem_cons.mpr (Or.inr (ih c h))
    · exact h

theorem mem_trimList {c : Char} {l : List Char} (h : c ∈ trimList l) : c ∈ l := by
  unfold trimList at h
  rw [List.mem_reverse] at h
  have h2 := mem_dropWhile _ _ _ h
  rw [List.mem_reverse] at h2
  exact mem_dropWhile _ _ _ h2

theorem trimList_idem (l : List Char) : trimList (trimList l) = trimList l := by
  unfold trimList
  have hSfix : (((l.dropWhile isTrimWS).reverse.dropWhile isTrimWS).dropWhile isTrimWS) =
      (l.dropWhile isTrimWS).reverse.dropWhile isTrimWS :=
    dropWhile_fix _ _ (dropWhile_head_false _ _)
  have hBfix : (((l.dropWhile isTrimWS).reverse.dropWhile isTrimWS).reverse).dropWhile
      isTrimWS = ((l.dropWhile isTrimWS).reverse.dropWhile isTrimWS).reverse := by
    apply dropWhile_fix
    intro d r h
    have h1 : (((l.dropWhile isTrimWS).reverse.dropWhile isTrimWS).reverse).head? =
        some d := by rw [h]; rfl
    rw [List.head?_reverse] at h1
    rcases getLast_dropWhile_opt isTrimWS ((l.dropWhile isTrimWS).reverse) with hg | hg
    · rw [hg, List.getLast?_reverse] at h1
      cases hD : l.dropWhile isTrimWS with
      | nil => rw [hD] at h1; simp at h1
      | cons e t =>
        rw [hD] at h1
        simp only [List.head?_cons, Option.some.injEq] at h1
        subst h1
        exact dropWhile_head_false isTrimWS l e t hD
    · rw [hg] at h
      simp at h
  rw [hBfix, List.reverse_reverse, hSfix]

theorem collapseGo_prepend_noWord (pr : List Char) (x : List Char)
    (hp : ∀ c ∈ pr, isWordChar c = false) :
    collapseGo (pr ++ x) = pr ++ collapseGo x := by
  induction pr with
  | nil => rfl
  | cons c pr ih =>
    simp only [List.cons_append]
    rw [collapseGo_cons, if_neg (by simp [hp c (List.mem_cons_self _ _)])]
    rw [ih (fun d hd => hp d (List.mem_cons.mpr (Or.inr hd)))]

theorem collapseGo_noWord_id (q : List Char) (hq : ∀ c ∈ q, isWordChar c = false) :
    collapseGo q = q := by
  have := collapseGo_prepend_noWord q [] hq
  simpa [collapseGo, collapseGoF] using this

theorem collapseGo_append_noWord :
    ∀ (n : ℕ) (m q : List Char), m.length ≤ n → (∀ c ∈ q, isWordChar c = false) →
    collapseGo (m ++ q) = collapseGo m ++ q := by
  intro n
  induction n with
  | zero =>
    intro m q hn hq
    have : m = [] := List.length_eq_zero.mp (Nat.le_zero.mp hn)
    subst this
    simp only [List.nil_append]
    rw [collapseGo_noWord_id q hq]
    rfl
  | succ n ih =>
    intro m q hn hq
    cases m with
    | nil =>
      simp only [List.nil_append]
      rw [collapseGo_noWord_id q hq]
      rfl
    | cons c m =>
      simp only [List.length_cons] at hn
      have hlen := takeWord_snd_length m
      have hqh : ∀ d l2, q = d :: l2 → isWordChar d = false := by
        intro d l2 hdq
        exact hq d (by rw [hdq]; simp)
      by_cases hw : isWordChar c = true
      · simp only [List.cons_append]
        rw [collapseGo_cons, collapseGo_cons, if_pos hw, if_pos hw,
          takeWord_append m q hqh]
        dsimp only
        rw [countReps_append_noWord _ (takeWord m).2.length (takeWord m).2 q
          (le_refl _) hq]
        dsimp only
        have hremlen : (countReps (lowerList (c :: (takeWord m).1)) (takeWord m).2).2.length ≤
            (takeWord m).2.length :=
          countReps_snd_length _ (takeWord m).2.length _ (le_refl _)
        split_ifs with h2
        · rw [ih _ q (by omega) hq]
          simp [List.append_assoc]
        · rw [ih (takeWord m).2 q (by omega) hq]
          simp [List.append_assoc]
      · simp only [List.cons_append]
        rw [collapseGo_cons, collapseGo_cons, if_neg hw, if_neg hw,
          ih m q (by omega) hq]
        rfl

theorem stripCJK_id (l : List Char) (h : ∀ c ∈ l, isCJK c = false) :
    stripCJK l = l := by
  unfold stripCJK
  apply List.filter_eq_self.mpr
  intro a ha
  simp [h a ha]

theorem mem_takeWhile_ws {c : Char} {l : List Char} (h : c ∈ l.takeWhile isTrimWS) :
    isTrimWS c = true := by
  induction l with
  | nil => simp [List.takeWhile] at h
  | cons a l ih =>
    rw [List.takeWhile_cons] at h
    split_ifs at h with ha
    · rcases List.mem_cons.mp h with rfl | h2
      · exact ha
      · exact ih h2
    · simp at h

theorem trim_decomp (v : List Char) :
    v = v.takeWhile isTrimWS ++
      (trimList v ++ ((v.dropWhile isTrimWS).reverse.takeWhile isTrimWS).reverse) := by
  unfold trimList
  conv_lhs => rw [← List.takeWhile_append_dropWhile (p := isTrimWS) (l := v)]
  congr 1
  conv_lhs => rw [← List.reverse_reverse (v.dropWhile isTrimWS),
    ← List.takeWhile_append_dropWhile (p := isTrimWS)
      (l := (v.dropWhile isTrimWS).reverse)]
  rw [List.reverse_append]

theorem trim_collapse_fix (v : List Char) (hfix : collapseGo v = v) :
    trimList (collapseGo (trimList v)) = trimList v := by
  have hP : ∀ c ∈ v.takeWhile isTrimWS, isWordChar c = false :=
    fun c hc => ws_not_word c (mem_takeWhile_ws hc)
  have hQ : ∀ c ∈ ((v.dropWhile isTrimWS).reverse.takeWhile isTrimWS).reverse,
      isWordChar c = false := by
    intro c hc
    rw [List.mem_reverse] at hc
    exact ws_not_word c (mem_takeWhile_ws hc)
  have h1 : collapseGo v = v.takeWhile isTrimWS ++
      (collapseGo (trimList v) ++
        ((v.dropWhile isTrimWS).reverse.takeWhile isTrimWS).reverse) := by
    conv_lhs => rw [trim_decomp v]
    rw [collapseGo_prepend_noWord _ _ hP]
    congr 1
    exact collapseGo_append_noWord (trimList v).length _ _ (le_refl _) hQ
  rw [hfix] at h1
  conv_lhs at h1 => rw [trim_decomp v]
  have h2 := List.append_cancel_left h1
  have h3 := List.append_cancel_right h2
  rw [← h3, trimList_idem]

theorem normalizeList_idem (cs : List Char) :
    normalizeList (normalizeList cs) = normalizeList cs := by
  unfold normalizeList
  have hclean : ∀ c ∈ trimList (collapseGo (stripCJK cs)), isCJK c = false := by
    intro c hc
    have h1 := mem_trimList hc
    have h2 := collapseGo_subset (stripCJK cs).length _ (le_refl _) c h1
    unfold stripCJK at h2
    rcases List.mem_filter.mp h2 with ⟨-, h3⟩
    revert h3
    cases isCJK c <;> simp
  rw [stripCJK_id _ hclean]
  exact trim_collapse_fix _ (collapseGo_idem (stripCJK cs).length _ (le_refl _))

theorem rmsSumSq_nonneg (data : List ℕ) : 0 ≤ rmsSumSq data := by
  apply List.sum_nonneg
  intro x hx
  simp only [List.mem_map] at hx
  obtain ⟨a, _, rfl⟩ := hx
  exact mul_self_nonneg _

/-! ## `flushSegment` case lemmas -/

theorem flushSegment_locked (now : ℕ) (s : VadState) (h : s.isFlushing = true) :
    flushSegment now s = { s with flushCalls := s.flushCalls + 1 } := by
  simp [flushSegment, h]

theorem flushSegment_rateLimited (now : ℕ) (s : VadState) (h1 : s.isFlushing = false)
    (h2 : now - s.lastFlushTime < MIN_FLUSH_INTERVAL_MS) :
    flushSegment now s = { s with flushCalls := s.flushCalls + 1 } := by
  simp [flushSegment, h1, h2]

theorem flushSegment_tooShort (now : ℕ) (s : VadState) (h1 : s.isFlushing = false)
    (h2 : ¬ now - s.lastFlushTime < MIN_FLUSH_INTERVAL_MS)
    (h3 : now - s.segmentStartTime < MIN_SEGMENT_DURATION_MS) :
    flushSegment now s = { s with flushCalls := s.flushCalls + 1 } := by
  simp [flushSegment, h1, h2, h3]

theorem flushSegment_discard (now : ℕ) (s : VadState) (h1 : s.isFlushing = false)
    (h2 : ¬ now - s.lastFlushTime < MIN_FLUSH_INTERVAL_MS)
    (h3 : ¬ now - s.segmentStartTime < MIN_SEGMENT_DURATION_MS)
    (h4 : s.maxVolume < SILENCE_THRESHOLD ∧ s.isSpeaking = false) :
    flushSegment now s =
      { s with
          audioChunks := [], segmentStartTime := now, lastFlushTime := now,
          maxVolume := 0, flushCalls := s.flushCalls + 1 } := by
  simp [flushSegment, h1, h2, h3, h4]

theorem flushSegment_stop (now : ℕ) (s : VadState) (h1 : s.isFlushing = false)
    (h2 : ¬ now - s.lastFlushTime < MIN_FLUSH_INTERVAL_MS)
    (h3 : ¬ now - s.segmentStartTime < MIN_SEGMENT_DURATION_MS)
    (h4 : ¬ (s.maxVolume < SILENCE_THRESHOLD ∧ s.isSpeaking = false))
    (h5 : s.recRecording = true) :
    flushSegment now s =
      { s with
          isFlushing := true, isVadTriggered := true, recRecording := false,
          pendingStop := true, stopsInitiated := s.stopsInitiated + 1,
          initTime := now, flushCalls := s.flushCalls + 1 } := by
  simp [flushSegment, h1, h2, h3, h4, h5]

/-! ## Quiet-phase step lemmas: a tick whose RMS does not exceed
`SPEAKING_THRESHOLD`, arriving while the VAD is not marked speaking and
neither hard cap is breached, never reaches `flushSegment`. -/

theorem checkVolume_quiet (rms : ℚ) (now : ℕ) (s : VadState)
    (h8 : ¬ SPEAKING_THRESHOLD < rms) (hsp : s.isSpeaking = false)
    (hc1 : ¬ MAX_SEGMENT_SIZE_BYTES < s.audioChunks.sum)
    (hc2 : ¬ MAX_SEGMENT_DURATION_MS < now - s.segmentStartTime) :
    (checkVolume rms now s).isSpeaking = false ∧
    (checkVolume rms now s).isFlushing = s.isFlushing ∧
    (checkVolume rms now s).pendingStop = s.pendingStop ∧
    (checkVolume rms now s).segmentStartTime = s.segmentStartTime ∧
    (checkVolume rms now s).flushCalls = s.flushCalls ∧
    (checkVolume rms now s).stopsInitiated = s.stopsInitiated ∧
    (checkVolume rms now s).tasks = s.tasks ∧
    (checkVolume rms now s).audioChunks = s.audioChunks ∧
    (checkVolume rms now s).lastFlushTime = s.lastFlushTime ∧
    (checkVolume rms now s).recRecording = s.recRecording ∧
    (checkVolume rms now s).isVadTriggered = s.isVadTriggered := by
  unfold checkVolume
  by_cases hss : s.silenceStart = none ∨ s.silenceStart = some 0 <;>
    split_ifs <;> (try simp_all) <;>
    (rw [if_neg (by rintro ⟨hab, -⟩; rcases hab with hh | hh <;> omega)]; simp_all)

/-- Running any quiet trace (all frames at or below `SPEAKING_THRESHOLD`,
frame times inside the hard age cap, total delivered bytes inside the
hard size cap) from a non-speaking, non-flushing state with no pending
stop leaves the flush machinery untouched. -/
theorem runV_quiet (t0 : ℕ) : ∀ (es : List VEvent) (s : VadState),
    framesBelowB SPEAKING_THRESHOLD es = true →
    frameTimesLEB (t0 + MAX_SEGMENT_DURATION_MS) es = true →
    s.audioChunks.sum + dataTotal es ≤ MAX_SEGMENT_SIZE_BYTES →
    s.isSpeaking = false → s.isFlushing = false → s.pendingStop = false →
    s.segmentStartTime = t0 →
    (runV s es).isSpeaking = false ∧ (runV s es).isFlushing = false ∧
    (runV s es).pendingStop = false ∧ (runV s es).segmentStartTime = t0 ∧
    (runV s es).flushCalls = s.flushCalls ∧
    (runV s es).stopsInitiated = s.stopsInitiated ∧
    (runV s es).tasks = s.tasks ∧
    (runV s es).lastFlushTime = s.lastFlushTime ∧
    (runV s es).recRecording = s.recRecording ∧
    (runV s es).audioChunks.sum ≤ s.audioChunks.sum + dataTotal es := by
  intro es
  induction es with
  | nil =>
    intro s _ _ _ hsp hfl hps hst
    exact ⟨hsp, hfl, hps, hst, rfl, rfl, rfl, rfl, rfl, by simp [runV, dataTotal]⟩
  | cons e es ih =>
    intro s hq ht hd hsp hfl hps hst
    cases e with
    | frame rms now =>
      simp only [framesBelowB, List.all_cons, Bool.and_eq_true, decide_eq_true_eq] at hq
      simp only [frameTimesLEB, List.all_cons, Bool.and_eq_true, decide_eq_true_eq] at ht
      have hc1 : ¬ MAX_SEGMENT_SIZE_BYTES < s.audioChunks.sum := by
        have : dataTotal (VEvent.frame rms now :: es) = dataTotal es := by
          simp [dataTotal]
        omega
      have hc2 : ¬ MAX_SEGMENT_DURATION_MS < now - s.segmentStartTime := by
        have := ht.1
        omega
      have hstep := checkVolume_quiet rms now s (by exact not_lt.mpr hq.1) hsp hc1 hc2
      have := ih (checkVolume rms now s)
        (by simpa [framesBelowB] using hq.2)
        (by simpa [frameTimesLEB] using ht.2)
        (by rw [hstep.2.2.2.2.2.2.2.1]
            have : dataTotal (VEvent.frame rms now :: es) = dataTotal es := by
              simp [dataTotal]
            omega)
        hstep.1 (hstep.2.1.trans hfl) (hstep.2.2.1.trans hps)
        (hstep.2.2.2.1.trans hst)
      simp only [runV, List.foldl_cons, stepV] at this ⊢
      refine ⟨this.1, this.2.1, this.2.2.1, this.2.2.2.1, ?_, ?_, ?_, ?_, ?_, ?_⟩
      · rw [this.2.2.2.2.1, hstep.2.2.2.2.1]
      · rw [this.2.2.2.2.2.1, hstep.2.2.2.2.2.1]
      · rw [this.2.2.2.2.2.2.1, hstep.2.2.2.2.2.2.1]
      · rw [this.2.2.2.2.2.2.2.1, hstep.2.2.2.2.2.2.2.2.1]
      · rw [this.2.2.2.2.2.2.2.2.1, hstep.2.2.2.2.2.2.2.2.2.1]
      · have h1 := this.2.2.2.2.2.2.2.2.2
        rw [hstep.2.2.2.2.2.2.2.1] at h1
        have h2 : dataTotal (VEvent.frame rms now :: es) = dataTotal es := by
          simp [dataTotal]
        omega
    | data size =>
      have hda : dataTotal (VEvent.data size :: es) = size + dataTotal es := by
        simp [dataTotal]
      have hchunks : (onData size s).audioChunks.sum ≤ s.audioChunks.sum + size := by
        unfold onData
        split_ifs <;> simp
      have hrest : (onData size s).isSpeaking = false ∧ (onData size s).isFlushing = false ∧
          (onData size s).pendingStop = false ∧ (onData size s).segmentStartTime = t0 ∧
          (onData size s).flushCalls = s.flushCalls ∧
          (onData size s).stopsInitiated = s.stopsInitiated ∧
          (onData size s).tasks = s.tasks := by
        unfold onData
        split_ifs <;> simp_all
      have := ih (onData size s)
        (by simpa [framesBelowB] using hq)
        (by simpa [frameTimesLEB] using ht)
        (by omega)
        hrest.1 hrest.2.1 hrest.2.2.1 hrest.2.2.2.1
      have hrest2 : (onData size s).lastFlushTime = s.lastFlushTime ∧
          (onData size s).recRecording = s.recRecording := by
        unfold onData
        split_ifs <;> simp
      simp only [runV, List.foldl_cons, stepV] at this ⊢
      refine ⟨this.1, this.2.1, this.2.2.1, this.2.2.2.1, ?_, ?_, ?_, ?_, ?_, ?_⟩
      · rw [this.2.2.2.2.1, hrest.2.2.2.2.1]
      · rw [this.2.2.2.2.2.1, hrest.2.2.2.2.2.1]
      · rw [this.2.2.2.2.2.2.1, hrest.2.2.2.2.2.2]
      · rw [this.2.2.2.2.2.2.2.1, hrest2.1]
      · rw [this.2.2.2.2.2.2.2.2.1, hrest2.2]
      · have h1 := this.2.2.2.2.2.2.2.2.2
        omega
    | stopDone now =>
      have hstop : onStop now s = s := by
        unfold onStop
        rw [if_pos hps]
      have := ih s
        (by simpa [framesBelowB] using hq)
        (by simpa [frameTimesLEB] using ht)
        (by have : dataTotal (VEvent.stopDone now :: es) = dataTotal es := by
              simp [dataTotal]
            omega)
        hsp hfl hps hst
      have hdt : dataTotal (VEvent.stopDone now :: es) = dataTotal es := by
        simp [dataTotal]
      simp only [runV, List.foldl_cons, stepV, hstop] at this ⊢
      rw [hdt]
      exact this

/-! ## Transcription-queue chain lemmas -/

theorem chainAll_run : ∀ (its : List (ℕ × TranscriptionTask)) (acc : QProg) (s : AppState),
    (its.foldl (fun a it => qthen a (runQTask it.1 it.2)) acc) s =
      (its.foldl (fun st it => (runQTask it.1 it.2 st).1) (acc s).1,
       (acc s).2 ++ its.flatMap fun it => taskEvents it.1 it.2) := by
  intro its
  induction its with
  | nil => intro acc s; simp
  | cons it its ih =>
    intro acc s
    simp only [List.foldl_cons, List.flatMap_cons]
    rw [ih]
    simp [qthen, runQTask, List.append_assoc]

theorem taskEvents_idx (i : ℕ) (t : TranscriptionTask) :
    ∀ e ∈ taskEvents i t, qidx e = i := by
  intro e he
  unfold taskEvents at he
  split_ifs at he
  · simp only [List.mem_singleton] at he; subst he; rfl
  · simp only [List.mem_singleton] at he; subst he; rfl
  · split at he
    · simp only [List.mem_cons, List.mem_singleton, List.not_mem_nil, or_false] at he
      rcases he with rfl | rfl <;> rfl
    · simp only [List.mem_append, List.mem_cons, List.not_mem_nil, or_false] at he
      rcases he with ((rfl | rfl) | hmem) | rfl
      · rfl
      · rfl
      · split at hmem
        · simp only [List.mem_singleton] at hmem; subst hmem; rfl
        · simp at hmem
      · rfl


theorem flushSegment_SpacingInv (now T : ℕ) (s : VadState)
    (hinv : SpacingInv T s) (hT : T ≤ now) :
    SpacingInv now (flushSegment now s) ∧
    (flushSegment now s).completions = s.completions := by
  obtain ⟨hch, hcl, hlf, hpend⟩ := hinv
  unfold flushSegment SpacingInv
  dsimp only
  split_ifs with h1 h2 h3 h4 h5 <;> dsimp only
  · -- locked
    refine ⟨⟨hch, hcl, by omega, ?_⟩, rfl⟩
    intro hp
    obtain ⟨a, b, c, d⟩ := hpend hp
    exact ⟨a, b, c, by omega⟩
  · -- rate limited
    refine ⟨⟨hch, hcl, by omega, ?_⟩, rfl⟩
    intro hp
    obtain ⟨a, b, c, d⟩ := hpend hp
    exact ⟨a, b, c, by omega⟩
  · -- too short
    refine ⟨⟨hch, hcl, by omega, ?_⟩, rfl⟩
    intro hp
    obtain ⟨a, b, c, d⟩ := hpend hp
    exact ⟨a, b, c, by omega⟩
  · -- discard: lastFlushTime := now
    refine ⟨⟨hch, ?_, le_refl now, ?_⟩, rfl⟩
    · intro c hc
      have := hcl c hc
      omega
    · intro hp
      obtain ⟨a, b, c, d⟩ := hpend hp
      exact absurd a h1
  · -- stop initiated
    refine ⟨⟨hch, hcl, by omega, ?_⟩, rfl⟩
    intro _
    refine ⟨rfl, rfl, ?_, le_refl now⟩
    intro c hc
    have h6 := hcl c hc
    omega
  · -- not recording
    refine ⟨⟨hch, hcl, by omega, ?_⟩, rfl⟩
    intro hp
    obtain ⟨a, b, c, d⟩ := hpend hp
    exact absurd a h1

theorem SpacingInv_mono {T T2 : ℕ} {s : VadState} (h : SpacingInv T s) (hT : T ≤ T2) :
    SpacingInv T2 s := by
  obtain ⟨hch, hcl, hlf, hpend⟩ := h
  refine ⟨hch, hcl, by omega, ?_⟩
  intro hp
  obtain ⟨a, b, c, d⟩ := hpend hp
  exact ⟨a, b, c, by omega⟩

theorem SpacingInv_congr {T : ℕ} {s s2 : VadState}
    (hc : s2.completions = s.completions)
    (hl : s2.lastFlushTime = s.lastFlushTime)
    (hp : s2.pendingStop = s.pendingStop)
    (hf : s2.isFlushing = s.isFlushing)
    (hv : s2.isVadTriggered = s.isVadTriggered)
    (hi : s2.initTime = s.initTime)
    (h : SpacingInv T s) : SpacingInv T s2 := by
  obtain ⟨hch, hcl, hlf, hpend⟩ := h
  rw [SpacingInv, hc, hl, hp, hf, hv, hi]
  exact ⟨hch, hcl, hlf, hpend⟩

theorem onStop_SpacingInv (now T : ℕ) (s : VadState)
    (hinv : SpacingInv T s) (hT : T ≤ now) :
    SpacingInv now (onStop now s) := by
  obtain ⟨hch, hcl, hlf, hpend⟩ := hinv
  by_cases h1 : s.pendingStop = false
  · rw [onStop, if_pos h1]
    refine ⟨hch, hcl, by omega, ?_⟩
    intro hp
    obtain ⟨a, b, c, d⟩ := hpend hp
    exact ⟨a, b, c, by omega⟩
  · have hp : s.pendingStop = true := by
      revert h1
      cases s.pendingStop <;> simp
    obtain ⟨hfl, hvad, hcomp, hinit⟩ := hpend hp
    have HCH : List.Chain' (fun a b => a + MIN_FLUSH_INTERVAL_MS ≤ b)
        (s.completions ++ [now]) := by
      rw [List.chain'_append]
      refine ⟨hch, List.chain'_singleton now, ?_⟩
      intro x hx y hy
      simp only [List.head?_cons, Option.mem_def, Option.some.injEq] at hy
      subst hy
      have := hcomp x (List.mem_of_mem_getLast? hx)
      omega
    have HCL : ∀ c ∈ s.completions ++ [now], c ≤ now := by
      intro c hc
      rw [List.mem_append] at hc
      rcases hc with hc | hc
      · have := hcl c hc
        omega
      · simp only [List.mem_singleton] at hc
        omega
    rw [onStop, if_neg h1]
    simp only
    rw [if_pos hvad]
    split_ifs <;> exact ⟨HCH, HCL, le_refl now, by simp⟩

theorem checkVolume_SpacingInv (rms : ℚ) (now T : ℕ) (s : VadState)
    (hinv : SpacingInv T s) (hT : T ≤ now) :
    SpacingInv now (checkVolume rms now s) := by
  unfold checkVolume
  dsimp only
  by_cases hss : s.silenceStart = none ∨ s.silenceStart = some 0 <;>
    split_ifs <;> (try dsimp only) <;>
    first
      | exact SpacingInv_congr rfl rfl rfl rfl rfl rfl (SpacingInv_mono hinv hT)
      | (apply (flushSegment_SpacingInv now T _ ?_ hT).1
         exact SpacingInv_congr rfl rfl rfl rfl rfl rfl hinv)
      | (apply (flushSegment_SpacingInv now now _ ?_ (le_refl now)).1
         apply SpacingInv_congr rfl rfl rfl rfl rfl rfl
         apply (flushSegment_SpacingInv now T _ ?_ hT).1
         exact SpacingInv_congr rfl rfl rfl rfl rfl rfl hinv)

theorem runV_SpacingInv : ∀ (es : List VEvent) (s : VadState) (T : ℕ),
    timedMonoB T es = true → SpacingInv T s →
    List.Chain' (fun a b => a + MIN_FLUSH_INTERVAL_MS ≤ b) ((runV s es).completions) := by
  intro es
  induction es with
  | nil => intro s T _ hinv; exact hinv.1
  | cons e es ih =>
    intro s T hmono hinv
    cases e with
    | frame rms now =>
      simp only [timedMonoB, Bool.and_eq_true, decide_eq_true_eq] at hmono
      have := ih (checkVolume rms now s) now hmono.2
        (checkVolume_SpacingInv rms now T s hinv hmono.1)
      simpa [runV, stepV] using this
    | data size =>
      simp only [timedMonoB] at hmono
      have hstep : SpacingInv T (onData size s) := by
        apply SpacingInv_congr ?_ ?_ ?_ ?_ ?_ ?_ hinv <;>
          (unfold onData; split_ifs <;> rfl)
      have := ih (onData size s) T hmono hstep
      simpa [runV, stepV] using this
    | stopDone now =>
      simp only [timedMonoB, Bool.and_eq_true, decide_eq_true_eq] at hmono
      have := ih (onStop now s) now hmono.2
        (onStop_SpacingInv now T s hinv hmono.1)
      simpa [runV, stepV] using this

theorem checkVolume_speak (rms : ℚ) (now : ℕ) (s : VadState)
    (h8 : SPEAKING_THRESHOLD < rms)
    (hc1 : ¬ MAX_SEGMENT_SIZE_BYTES < s.audioChunks.sum)
    (hc2 : ¬ MAX_SEGMENT_DURATION_MS < now - s.segmentStartTime) :
    (checkVolume rms now s).isSpeaking = true ∧
    (checkVolume rms now s).silenceStart = none ∧
    (checkVolume rms now s).isFlushing = s.isFlushing ∧
    (checkVolume rms now s).pendingStop = s.pendingStop ∧
    (checkVolume rms now s).segmentStartTime = s.segmentStartTime ∧
    (checkVolume rms now s).lastFlushTime = s.lastFlushTime ∧
    (checkVolume rms now s).audioChunks = s.audioChunks ∧
    (checkVolume rms now s).stopsInitiated = s.stopsInitiated ∧
    (checkVolume rms now s).recRecording = s.recRecording ∧
    (checkVolume rms now s).tasks = s.tasks ∧
    (checkVolume rms now s).completions = s.completions := by
  unfold checkVolume
  dsimp only
  by_cases hss : s.silenceStart = none ∨ s.silenceStart = some 0 <;>
    split_ifs <;> (try dsimp only) <;>
    first
      | (simp_all
         done)
      | (exfalso
         (try dsimp only at *)
         (try simp only [hss, Option.getD_some] at *)
         (try omega)
         done)

theorem checkVolume_silentSet (rms : ℚ) (now : ℕ) (s : VadState)
    (h8 : ¬ SPEAKING_THRESHOLD < rms)
    (hss : s.silenceStart = none ∨ s.silenceStart = some 0)
    (hc1 : ¬ MAX_SEGMENT_SIZE_BYTES < s.audioChunks.sum)
    (hc2 : ¬ MAX_SEGMENT_DURATION_MS < now - s.segmentStartTime) :
    (checkVolume rms now s).isSpeaking = s.isSpeaking ∧
    (checkVolume rms now s).silenceStart = some now ∧
    (checkVolume rms now s).isFlushing = s.isFlushing ∧
    (checkVolume rms now s).pendingStop = s.pendingStop ∧
    (checkVolume rms now s).segmentStartTime = s.segmentStartTime ∧
    (checkVolume rms now s).lastFlushTime = s.lastFlushTime ∧
    (checkVolume rms now s).audioChunks = s.audioChunks ∧
    (checkVolume rms now s).stopsInitiated = s.stopsInitiated ∧
    (checkVolume rms now s).recRecording = s.recRecording ∧
    (checkVolume rms now s).tasks = s.tasks := by
  unfold checkVolume
  dsimp only
  split_ifs <;> (try dsimp only) <;>
    first
      | (simp_all
         done)
      | (exfalso
         (try dsimp only at *)
         (try simp only [hss, Option.getD_some] at *)
         (try omega)
         done)

theorem checkVolume_armedNoFire (rms : ℚ) (now u1 : ℕ) (s : VadState)
    (h8 : ¬ SPEAKING_THRESHOLD < rms)
    (hss : s.silenceStart = some u1) (hu : u1 ≠ 0)
    (hng : ¬ SILENCE_HANG_MS < now - u1)
    (hc1 : ¬ MAX_SEGMENT_SIZE_BYTES < s.audioChunks.sum)
    (hc2 : ¬ MAX_SEGMENT_DURATION_MS < now - s.segmentStartTime) :
    (checkVolume rms now s).isSpeaking = s.isSpeaking ∧
    (checkVolume rms now s).silenceStart = some u1 ∧
    (checkVolume rms now s).isFlushing = s.isFlushing ∧
    (checkVolume rms now s).pendingStop = s.pendingStop ∧
    (checkVolume rms now s).segmentStartTime = s.segmentStartTime ∧
    (checkVolume rms now s).lastFlushTime = s.lastFlushTime ∧
    (checkVolume rms now s).audioChunks = s.audioChunks ∧
    (checkVolume rms now s).stopsInitiated = s.stopsInitiated ∧
    (checkVolume rms now s).recRecording = s.recRecording ∧
    (checkVolume rms now s).tasks = s.tasks := by
  have hssf : ¬ (s.silenceStart = none ∨ s.silenceStart = some 0) := by
    rw [hss]
    simp [hu]
  unfold checkVolume
  dsimp only
  simp only [hss]
  split_ifs <;> (try dsimp only) <;>
    first
      | (simp_all
         done)
      | (exfalso
         (try dsimp only at *)
         (try simp only [hss, Option.getD_some] at *)
         (try omega)
         done)

theorem checkVolume_fire (rms : ℚ) (now u1 : ℕ) (s : VadState)
    (h8 : ¬ SPEAKING_THRESHOLD < rms)
    (hss : s.silenceStart = some u1) (hu : u1 ≠ 0)
    (hng : SILENCE_HANG_MS < now - u1)
    (hsp : s.isSpeaking = true)
    (hfl : s.isFlushing = false)
    (hrl : ¬ now - s.lastFlushTime < MIN_FLUSH_INTERVAL_MS)
    (hdur : ¬ now - s.segmentStartTime < MIN_SEGMENT_DURATION_MS)
    (hrec : s.recRecording = true)
    (hc1 : ¬ MAX_SEGMENT_SIZE_BYTES < s.audioChunks.sum)
    (hc2 : ¬ MAX_SEGMENT_DURATION_MS < now - s.segmentStartTime) :
    (checkVolume rms now s).stopsInitiated = s.stopsInitiated + 1 ∧
    (checkVolume rms now s).pendingStop = true ∧
    (checkVolume rms now s).isFlushing = true ∧
    (checkVolume rms now s).isVadTriggered = true ∧
    (checkVolume rms now s).isSpeaking = true ∧
    (checkVolume rms now s).audioChunks = s.audioChunks ∧
    (checkVolume rms now s).segmentStartTime = s.segmentStartTime ∧
    (checkVolume rms now s).tasks = s.tasks := by
  have hssf : ¬ (s.silenceStart = none ∨ s.silenceStart = some 0) := by
    rw [hss]
    simp [hu]
  unfold checkVolume
  dsimp only
  simp only [hss]
  split_ifs <;> (try dsimp only) <;>
    first
      | (simp_all
         done)
      | (simp [flushSegment, hfl, hrl, hdur, hsp, hrec]
         done)
      | (exfalso
         (try simp [flushSegment, Option.getD_some, hfl, hrl, hdur, hsp, hrec] at *)
         (try omega)
         done)

theorem onStop_pend (now : ℕ) (s : VadState)
    (hp : s.pendingStop = true) (hv : s.isVadTriggered = true) :
    (onStop now s).stopsInitiated = s.stopsInitiated ∧
    (onStop now s).audioChunks = [] ∧
    (onStop now s).segmentStartTime = now ∧
    (onStop now s).isSpeaking = false ∧
    (onStop now s).isFlushing = false ∧
    (onStop now s).pendingStop = false ∧
    (onStop now s).isVadTriggered = false ∧
    (onStop now s).lastFlushTime = now := by
  unfold onStop
  rw [if_neg (by rw [hp]; simp)]
  dsimp only
  rw [if_pos hv]
  split_ifs <;> simp

set_option maxHeartbeats 1600000 in
theorem checkVolume_post (rms : ℚ) (now : ℕ) (s : VadState)
    (h8 : ¬ SPEAKING_THRESHOLD < rms)
    (hpost : s.isFlushing = true ∨ s.isSpeaking = false)
    (hc1 : ¬ MAX_SEGMENT_SIZE_BYTES < s.audioChunks.sum)
    (hc2 : ¬ MAX_SEGMENT_DURATION_MS < now - s.segmentStartTime) :
    (checkVolume rms now s).stopsInitiated = s.stopsInitiated ∧
    (checkVolume rms now s).audioChunks = s.audioChunks ∧
    (checkVolume rms now s).segmentStartTime = s.segmentStartTime ∧
    (checkVolume rms now s).pendingStop = s.pendingStop ∧
    (checkVolume rms now s).isFlushing = s.isFlushing ∧
    (checkVolume rms now s).isVadTriggered = s.isVadTriggered ∧
    (checkVolume rms now s).isSpeaking = s.isSpeaking := by
  rcases hpost with hfl | hsp
  · unfold checkVolume
    dsimp only
    by_cases hss : s.silenceStart = none ∨ s.silenceStart = some 0 <;>
      split_ifs <;> (try dsimp only) <;>
      first
        | (simp_all
           done)
        | (simp [flushSegment, hfl]
           done)
        | (exfalso
           (try simp [flushSegment, hfl, Option.getD_some] at *)
           (try omega)
           done)
  · unfold checkVolume
    dsimp only
    by_cases hss : s.silenceStart = none ∨ s.silenceStart = some 0 <;>
      split_ifs <;> (try dsimp only) <;>
      first
        | (simp_all
           done)
        | (exfalso
           (try dsimp only at *)
           (try simp only [Option.getD_some] at *)
           (try omega)
           done)

theorem runV_post (t0 : ℕ) : ∀ (es : List VEvent) (s : VadState) (T : ℕ),
    framesBelowB SPEAKING_THRESHOLD es = true →
    frameTimesLEB (t0 + MAX_SEGMENT_DURATION_MS) es = true →
    timedMonoB T es = true → t0 ≤ T →
    s.audioChunks.sum + dataTotal es ≤ MAX_SEGMENT_SIZE_BYTES →
    t0 ≤ s.segmentStartTime →
    (s.isFlushing = true ∨ s.isSpeaking = false) →
    (s.pendingStop = true → s.isVadTriggered = true ∧ s.isFlushing = true) →
    (runV s es).stopsInitiated = s.stopsInitiated := by
  intro es
  induction es with
  | nil => intro s T _ _ _ _ _ _ _ _; rfl
  | cons e es ih =>
    intro s T hq ht hm hT hd hst hpost hpend
    cases e with
    | frame rms now =>
      simp only [framesBelowB, List.all_cons, Bool.and_eq_true, decide_eq_true_eq] at hq
      simp only [frameTimesLEB, List.all_cons, Bool.and_eq_true, decide_eq_true_eq] at ht
      simp only [timedMonoB, Bool.and_eq_true, decide_eq_true_eq] at hm
      have hda : dataTotal (VEvent.frame rms now :: es) = dataTotal es := by
        simp [dataTotal]
      have hc1 : ¬ MAX_SEGMENT_SIZE_BYTES < s.audioChunks.sum := by omega
      have hc2 : ¬ MAX_SEGMENT_DURATION_MS < now - s.segmentStartTime := by
        have := ht.1
        omega
      have hstep := checkVolume_post rms now s (not_lt.mpr hq.1) hpost hc1 hc2
      have := ih (checkVolume rms now s) now
        (by simpa [framesBelowB] using hq.2)
        (by simpa [frameTimesLEB] using ht.2)
        hm.2 (by omega)
        (by rw [hstep.2.1]; omega)
        (by rw [hstep.2.2.1]; omega)
        (by rw [hstep.2.2.2.2.1, hstep.2.2.2.2.2.2]; exact hpost)
        (by rw [hstep.2.2.2.1, hstep.2.2.2.2.1, hstep.2.2.2.2.2.1]; exact hpend)
      simp only [runV, List.foldl_cons, stepV] at this ⊢
      rw [this, hstep.1]
    | data size =>
      simp only [timedMonoB] at hm
      have hda : dataTotal (VEvent.data size :: es) = size + dataTotal es := by
        simp [dataTotal]
      have hchunks : (onData size s).audioChunks.sum ≤ s.audioChunks.sum + size := by
        unfold onData
        split_ifs <;> simp
      have hfields : (onData size s).stopsInitiated = s.stopsInitiated ∧
          (onData size s).segmentStartTime = s.segmentStartTime ∧
          (onData size s).isFlushing = s.isFlushing ∧
          (onData size s).isSpeaking = s.isSpeaking ∧
          (onData size s).pendingStop = s.pendingStop ∧
          (onData size s).isVadTriggered = s.isVadTriggered := by
        unfold onData
        split_ifs <;> simp
      have := ih (onData size s) T
        (by simpa [framesBelowB] using hq)
        (by simpa [frameTimesLEB] using ht)
        hm hT (by omega)
        (by rw [hfields.2.1]; omega)
        (by rw [hfields.2.2.1, hfields.2.2.2.1]; exact hpost)
        (by rw [hfields.2.2.2.2.1, hfields.2.2.2.2.2, hfields.2.2.1]; exact hpend)
      simp only [runV, List.foldl_cons, stepV] at this ⊢
      rw [this, hfields.1]
    | stopDone now =>
      simp only [timedMonoB, Bool.and_eq_true, decide_eq_true_eq] at hm
      have hda : dataTotal (VEvent.stopDone now :: es) = dataTotal es := by
        simp [dataTotal]
      by_cases hp : s.pendingStop = true
      · obtain ⟨hv, hfl⟩ := hpend hp
        have hstep := onStop_pend now s hp hv
        have := ih (onStop now s) now
          (by simpa [framesBelowB] using hq)
          (by simpa [frameTimesLEB] using ht)
          hm.2 (by omega)
          (by rw [hstep.2.1]; simp; omega)
          (by rw [hstep.2.2.1]; omega)
          (by rw [hstep.2.2.2.1]; exact Or.inr rfl)
          (by rw [hstep.2.2.2.2.2.1]; intro h; exact absurd h (by simp))
        simp only [runV, List.foldl_cons, stepV] at this ⊢
        rw [this, hstep.1]
      · have hstop : onStop now s = s := by
          unfold onStop
          rw [if_pos (by revert hp; cases s.pendingStop <;> simp)]
        have := ih s now
          (by simpa [framesBelowB] using hq)
          (by simpa [frameTimesLEB] using ht)
          hm.2 (by omega) (by omega) hst hpost hpend
        simp only [runV, List.foldl_cons, stepV, hstop] at this ⊢
        rw [this]

theorem framesBelowB_append (q : ℚ) (es1 es2 : List VEvent) :
    framesBelowB q (es1 ++ es2) = (framesBelowB q es1 && framesBelowB q es2) := by
  simp [framesBelowB, List.all_append]

theorem frameTimesLEB_append (m : ℕ) (es1 es2 : List VEvent) :
    frameTimesLEB m (es1 ++ es2) = (frameTimesLEB m es1 && frameTimesLEB m es2) := by
  simp [frameTimesLEB, List.all_append]

theorem dataTotal_append (es1 es2 : List VEvent) :
    dataTotal (es1 ++ es2) = dataTotal es1 + dataTotal es2 := by
  simp [dataTotal]

theorem timedMonoB_split : ∀ (es1 : List VEvent) (T : ℕ) (es2 : List VEvent),
    timedMonoB T (es1 ++ es2) = true →
    ∃ T2, T ≤ T2 ∧ timedMonoB T2 es2 = true := by
  intro es1
  induction es1 with
  | nil =>
    intro T es2 h
    exact ⟨T, le_refl T, h⟩
  | cons e es1 ih =>
    intro T es2 h
    cases e with
    | frame rms n =>
      simp only [List.cons_append, timedMonoB, Bool.and_eq_true, decide_eq_true_eq] at h
      obtain ⟨T2, hT2, h2⟩ := ih n es2 h.2
      exact ⟨T2, le_trans h.1 hT2, h2⟩
    | data k =>
      simp only [List.cons_append, timedMonoB] at h
      exact ih T es2 h
    | stopDone n =>
      simp only [List.cons_append, timedMonoB, Bool.and_eq_true, decide_eq_true_eq] at h
      obtain ⟨T2, hT2, h2⟩ := ih n es2 h.2
      exact ⟨T2, le_trans h.1 hT2, h2⟩

/-- Armed phase: from a speaking state whose silence timer is armed at
`u1`, running any trace of sub-threshold frames that contains a frame
strictly later than `u1 + SILENCE_HANG_MS` initiates exactly one more
recorder stop. -/
theorem runV_armed (t0 u1 : ℕ) : ∀ (es : List VEvent) (s : VadState) (T : ℕ),
    framesBelowB SPEAKING_THRESHOLD es = true →
    frameTimesLEB (t0 + MAX_SEGMENT_DURATION_MS) es = true →
    timedMonoB T es = true → t0 ≤ T →
    s.audioChunks.sum + dataTotal es ≤ MAX_SEGMENT_SIZE_BYTES →
    1 ≤ u1 → t0 ≤ u1 →
    s.isSpeaking = true → s.silenceStart = some u1 →
    s.isFlushing = false → s.pendingStop = false → s.recRecording = true →
    s.lastFlushTime = t0 → s.segmentStartTime = t0 →
    hasLateFrameB u1 es = true →
    (runV s es).stopsInitiated = s.stopsInitiated + 1 := by
  intro es
  induction es with
  | nil =>
    intro s T _ _ _ _ _ _ _ _ _ _ _ _ _ _ hlate
    simp [hasLateFrameB] at hlate
  | cons e es ih =>
    intro s T hq ht hm hT hd hu1 htu hsp hss hfl hps hrec hlf hst hlate
    cases e with
    | frame rms now =>
      simp only [framesBelowB, List.all_cons, Bool.and_eq_true, decide_eq_true_eq] at hq
      simp only [frameTimesLEB, List.all_cons, Bool.and_eq_true, decide_eq_true_eq] at ht
      simp only [timedMonoB, Bool.and_eq_true, decide_eq_true_eq] at hm
      have hda : dataTotal (VEvent.frame rms now :: es) = dataTotal es := by
        simp [dataTotal]
      have hc1 : ¬ MAX_SEGMENT_SIZE_BYTES < s.audioChunks.sum := by omega
      have hc2 : ¬ MAX_SEGMENT_DURATION_MS < now - s.segmentStartTime := by
        have := ht.1
        omega
      by_cases hfire : SILENCE_HANG_MS < now - u1
      · have hrl : ¬ now - s.lastFlushTime < MIN_FLUSH_INTERVAL_MS := by
          rw [hlf]
          simp only [SILENCE_HANG_MS] at hfire
          simp only [MIN_FLUSH_INTERVAL_MS]
          omega
        have hdur : ¬ now - s.segmentStartTime < MIN_SEGMENT_DURATION_MS := by
          rw [hst]
          simp only [SILENCE_HANG_MS] at hfire
          simp only [MIN_SEGMENT_DURATION_MS]
          omega
        have hstep := checkVolume_fire rms now u1 s (not_lt.mpr hq.1) hss (by omega) hfire
          hsp hfl hrl hdur hrec hc1 hc2
        have hpost := runV_post t0 es (checkVolume rms now s) now
          (by simpa [framesBelowB] using hq.2)
          (by simpa [frameTimesLEB] using ht.2)
          hm.2 (by omega)
          (by rw [hstep.2.2.2.2.2.1]; omega)
          (by rw [hstep.2.2.2.2.2.2.1, hst])
          (Or.inl hstep.2.2.1)
          (fun _ => ⟨hstep.2.2.2.1, hstep.2.2.1⟩)
        simp only [runV, List.foldl_cons, stepV] at hpost ⊢
        rw [hpost, hstep.1]
      · have hstep := checkVolume_armedNoFire rms now u1 s (not_lt.mpr hq.1) hss (by omega)
          hfire hc1 hc2
        have hlate2 : hasLateFrameB u1 es = true := by
          simp only [hasLateFrameB, List.any_cons, Bool.or_eq_true, decide_eq_true_eq]
            at hlate ⊢
          rcases hlate with h | h
          · exfalso
            simp only [SILENCE_HANG_MS] at hfire h
            omega
          · exact h
        have := ih (checkVolume rms now s) now
          (by simpa [framesBelowB] using hq.2)
          (by simpa [frameTimesLEB] using ht.2)
          hm.2 (by omega)
          (by rw [hstep.2.2.2.2.2.2.1]; omega)
          hu1 htu
          (by rw [hstep.1]; exact hsp)
          hstep.2.1
          (hstep.2.2.1.trans hfl)
          (hstep.2.2.2.1.trans hps)
          (hstep.2.2.2.2.2.2.2.2.1.trans hrec)
          (hstep.2.2.2.2.2.1.trans hlf)
          (hstep.2.2.2.2.1.trans hst)
          hlate2
        simp only [runV, List.foldl_cons, stepV] at this ⊢
        rw [this, hstep.2.2.2.2.2.2.2.1]
    | data size =>
      simp only [timedMonoB] at hm
      have hda : dataTotal (VEvent.data size :: es) = size + dataTotal es := by
        simp [dataTotal]
      have hchunks : (onData size s).audioChunks.sum ≤ s.audioChunks.sum + size := by
        unfold onData
        split_ifs <;> simp
      have hfields : (onData size s).isSpeaking = s.isSpeaking ∧
          (onData size s).silenceStart = s.silenceStart ∧
          (onData size s).isFlushing = s.isFlushing ∧
          (onData size s).pendingStop = s.pendingStop ∧
          (onData size s).recRecording = s.recRecording ∧
          (onData size s).lastFlushTime = s.lastFlushTime ∧
          (onData size s).segmentStartTime = s.segmentStartTime ∧
          (onData size s).stopsInitiated = s.stopsInitiated := by
        unfold onData
        split_ifs <;> simp
      have hlate2 : hasLateFrameB u1 es = true := by
        simpa [hasLateFrameB] using hlate
      have := ih (onData size s) T
        (by simpa [framesBelowB] using hq)
        (by simpa [frameTimesLEB] using ht)
        hm hT (by omega)
        hu1 htu
        (hfields.1.trans hsp)
        (hfields.2.1.trans hss)
        (hfields.2.2.1.trans hfl)
        (hfields.2.2.2.1.trans hps)
        (hfields.2.2.2.2.1.trans hrec)
        (hfields.2.2.2.2.2.1.trans hlf)
        (hfields.2.2.2.2.2.2.1.trans hst)
        hlate2
      simp only [runV, List.foldl_cons, stepV] at this ⊢
      rw [this, hfields.2.2.2.2.2.2.2]
    | stopDone now =>
      simp only [timedMonoB, Bool.and_eq_true, decide_eq_true_eq] at hm
      have hstop : onStop now s = s := by
        unfold onStop
        rw [if_pos (by rw [hps])]
      have hda : dataTotal (VEvent.stopDone now :: es) = dataTotal es := by
        simp [dataTotal]
      have hlate2 : hasLateFrameB u1 es = true := by
        simpa [hasLateFrameB] using hlate
      have := ih s now
        (by simpa [framesBelowB] using hq)
        (by simpa [frameTimesLEB] using ht)
        hm.2 (by omega) (by omega)
        hu1 htu hsp hss hfl hps hrec hlf hst hlate2
      simp only [runV, List.foldl_cons, stepV, hstop] at this ⊢
      rw [this]


/-! # Claim theorems -/

/-- C1 (confirmed): the promise-chained transcription queue is a strict
single-consumer FIFO.  The event trace of draining the queue is exactly
the concatenation of the per-task phase blocks in enqueue order, so every
phase of task N+1 (its backend call included) occurs after every phase of
task N (its transcript append included); in particular event positions
are monotone in task index, each block ends with its completion, and a
non-skipped block begins with its backend call. -/
theorem claim_C1_queue_fifo (tasks : List TranscriptionTask) (s0 : AppState) :
    (enqueueAll tasks s0).2 =
      tasks.enum.flatMap (fun it => taskEvents it.1 it.2) ∧
    List.Pairwise (fun a b => qidx a ≤ qidx b) ((enqueueAll tasks s0).2) ∧
    (∀ i t, (∃ mid, taskEvents i t =
        QEvent.backendCall i :: (mid ++ [QEvent.taskDone i])) ∨
      taskEvents i t = [QEvent.taskDone i]) := by
  have htrace : (enqueueAll tasks s0).2 =
      tasks.enum.flatMap fun it => taskEvents it.1 it.2 := by
    unfold enqueueAll chainAll
    rw [chainAll_run]
    simp [qinit]
  have hflat : ∀ (its : List (ℕ × TranscriptionTask)),
      List.Pairwise (fun a b => a.1 ≤ b.1) its →
      List.Pairwise (fun a b => qidx a ≤ qidx b)
        (its.flatMap fun it => taskEvents it.1 it.2) := by
    intro its
    induction its with
    | nil => intro _; simp
    | cons it its ih =>
      intro hmono
      rw [List.flatMap_cons, List.pairwise_append]
      rw [List.pairwise_cons] at hmono
      refine ⟨?_, ih hmono.2, ?_⟩
      · apply List.pairwise_of_forall_mem_list
        intro a ha b hb
        rw [taskEvents_idx _ _ a ha, taskEvents_idx _ _ b hb]
      · intro a ha b hb
        rw [List.mem_flatMap] at hb
        obtain ⟨jt, hjt, hbj⟩ := hb
        rw [taskEvents_idx _ _ a ha, taskEvents_idx _ _ b hbj]
        exact hmono.1 jt hjt
  refine ⟨htrace, ?_, ?_⟩
  · rw [htrace]
    apply hflat
    have h1 : List.Pairwise (fun a b => a < b) (tasks.enum.map Prod.fst) := by
      rw [List.enum_map_fst]
      exact List.pairwise_lt_range _
    rw [List.pairwise_map] at h1
    exact h1.imp Nat.le_of_lt
  · intro i t
    unfold taskEvents
    split_ifs
    · exact Or.inr rfl
    · exact Or.inr rfl
    · match t.backend with
      | Except.error _ => exact Or.inl ⟨[], rfl⟩
      | Except.ok text =>
        exact Or.inl ⟨QEvent.normalizeDone i ::
          (if (normalizeText text).length ≠ 0 ∧ 0 < wordRuns (normalizeText text).data
            then [QEvent.transcriptAppend i] else []), by simp⟩

/-- C2 (confirmed): for every event trace whose frames never exceed
`SPEAKING_THRESHOLD` (so `isSpeaking` never becomes true) and in which no
hard size/age cap is breached (total delivered bytes within the 5 MiB
cap, frame times within the 30-minute cap), the session started at `t0`
never even calls `flushSegment`, initiates no recorder stop, and creates
no TranscriptionTask. -/
theorem claim_C2_all_silent_no_flush (t0 : ℕ) (es : List VEvent)
    (hq : framesBelowB SPEAKING_THRESHOLD es = true)
    (ht : frameTimesLEB (t0 + MAX_SEGMENT_DURATION_MS) es = true)
    (hd : dataTotal es ≤ MAX_SEGMENT_SIZE_BYTES) :
    (runV (initV t0) es).flushCalls = 0 ∧
    (runV (initV t0) es).stopsInitiated = 0 ∧
    (runV (initV t0) es).tasks = [] ∧
    (runV (initV t0) es).isSpeaking = false := by
  have h := runV_quiet t0 es (initV t0) hq ht (by simpa [initV] using hd) rfl rfl rfl rfl
  exact ⟨h.2.2.2.2.1, h.2.2.2.2.2.1, h.2.2.2.2.2.2.1, h.1⟩

/-- Witness for C2 on a concrete silent trace. -/
theorem claim_C2_all_silent_no_flush_witness :
    (runV (initV 900)
      [VEvent.frame 2 1000, VEvent.data 50, VEvent.frame 7 1100]).flushCalls = 0 ∧
    (runV (initV 900)
      [VEvent.frame 2 1000, VEvent.data 50, VEvent.frame 7 1100]).stopsInitiated = 0 ∧
    (runV (initV 900)
      [VEvent.frame 2 1000, VEvent.data 50, VEvent.frame 7 1100]).tasks = [] ∧
    (runV (initV 900)
      [VEvent.frame 2 1000, VEvent.data 50, VEvent.frame 7 1100]).isSpeaking = false :=
  claim_C2_all_silent_no_flush 900
    [VEvent.frame 2 1000, VEvent.data 50, VEvent.frame 7 1100]
    (by decide) (by decide) (by decide)

/-- C10 (confirmed): the toggle entry point dispatches `startRecording`
only when the status is `idle` (and only with settings closed and the
model ready), dispatches `stopRecording` only when the status is
`recording`, is a no-op for status `starting`/`processing`/`error`, and
is a complete no-op (state fully unchanged, nothing dispatched) while the
settings panel is open or the model is not ready. -/
theorem claim_C10_toggle_guards
    (showSettings isModelReady : Bool) (now lastToggleTime : ℕ) (status : RecStatus) :
    ((handleToggle showSettings isModelReady now lastToggleTime status).2 =
        ToggleAction.start →
      status = RecStatus.idle ∧ showSettings = false ∧ isModelReady = true) ∧
    ((handleToggle showSettings isModelReady now lastToggleTime status).2 =
        ToggleAction.stop →
      status = RecStatus.recording) ∧
    (status = RecStatus.starting ∨ status = RecStatus.processing ∨ status = RecStatus.error →
      (handleToggle showSettings isModelReady now lastToggleTime status).2 =
        ToggleAction.nop) ∧
    (showSettings = true ∨ isModelReady = false →
      handleToggle showSettings isModelReady now lastToggleTime status =
        (lastToggleTime, ToggleAction.nop)) := by
  unfold handleToggle
  split_ifs with h1 h2 h3 h4 <;> refine ⟨?_, ?_, ?_, ?_⟩ <;> intro hx <;> simp_all

/-- Witness for C10 at concrete inputs: a toggle during `processing` is
not dispatched, and a toggle with the settings panel open changes
nothing. -/
theorem claim_C10_toggle_guards_witness :
    (handleToggle false true 1000 0 RecStatus.processing).2 = ToggleAction.nop ∧
    handleToggle true true 1000 0 RecStatus.idle = (0, ToggleAction.nop) :=
  ⟨(claim_C10_toggle_guards false true 1000 0 RecStatus.processing).2.2.1
      (Or.inr (Or.inl rfl)),
   (claim_C10_toggle_guards true true 1000 0 RecStatus.idle).2.2.2 (Or.inl rfl)⟩

/-- C5 (corrected), counterexample: on the empty frame the source
evaluates `Math.sqrt(0 / 0)`, i.e. `Math.sqrt(NaN) = NaN`, not `0`: the
argument of the square root is already non-finite (`none`), so
`calculateRMS` does not return the claimed well-defined `0`. -/
theorem claim_C5_empty_frame_nan : calculateRMSmeanSq [] = none := rfl

/-- C5 (corrected), amended: for every NON-empty frame of unsigned 8-bit
samples the argument of `Math.sqrt` is the exact nonnegative mean of the
squared deviations from the 128 baseline, and the returned RMS
`Math.sqrt(q)` is the well-defined (non-NaN) nonnegative real whose
square is that mean; the empty frame instead yields NaN. -/
theorem claim_C5_rms_formula (data : List ℕ) (h : data ≠ []) :
    ∃ q : ℚ, calculateRMSmeanSq data = some q ∧ 0 ≤ q ∧
      (q : ℝ) = (rmsSumSq data : ℝ) / (data.length : ℝ) ∧
      0 ≤ Real.sqrt q ∧ Real.sqrt q * Real.sqrt q = (q : ℝ) := by
  have hlen : data.length ≠ 0 := by simpa using h
  have hq : (0 : ℚ) ≤ (rmsSumSq data : ℚ) / (data.length : ℚ) := by
    apply div_nonneg
    · exact_mod_cast rmsSumSq_nonneg data
    · positivity
  refine ⟨(rmsSumSq data : ℚ) / (data.length : ℚ), ?_, hq, ?_, Real.sqrt_nonneg _, ?_⟩
  · unfold calculateRMSmeanSq
    rw [if_neg hlen]
  · push_cast
    ring
  · exact Real.mul_self_sqrt (by exact_mod_cast hq)

/-- Witness for C5 at the concrete frame `[128, 130]`. -/
theorem claim_C5_rms_formula_witness :
    ([128, 130] : List ℕ) ≠ [] ∧
    ∃ q : ℚ, calculateRMSmeanSq [128, 130] = some q ∧ 0 ≤ q ∧
      (q : ℝ) = (rmsSumSq [128, 130] : ℝ) / (([128, 130] : List ℕ).length : ℝ) ∧
      0 ≤ Real.sqrt q ∧ Real.sqrt q * Real.sqrt q = (q : ℝ) :=
  ⟨by decide, claim_C5_rms_formula [128, 130] (by decide)⟩

/-- C4 (code_bug): evaluating `processAudio` at the failing input.  A
backend error on a NON-final segment task leaves the status unchanged for
the moment but still schedules `setStatus('idle')` after 3000 ms (the
`setTimeout` in the catch block is outside the `if (!isSegment)` guard),
so a live recording session is forced back to `idle` three seconds later
— the claim (and spec §4.4/§7a) say the session continues uninterrupted
with its state unchanged.  On the final task the claimed behaviour
(status `error`, idle reset after the 3 s cooldown) does hold. -/
theorem claim_C4_error_timeout_bug :
    (processAudio ⟨10, true, 5, Except.error ()⟩
        ⟨"", none, RecStatus.recording, [], []⟩).status = RecStatus.recording ∧
    (processAudio ⟨10, true, 5, Except.error ()⟩
        ⟨"", none, RecStatus.recording, [], []⟩).scheduled = [(3000, RecStatus.idle)] ∧
    (processAudio ⟨10, false, 5, Except.error ()⟩
        ⟨"", none, RecStatus.processing, [], []⟩).status = RecStatus.error ∧
    (processAudio ⟨10, false, 5, Except.error ()⟩
        ⟨"", none, RecStatus.processing, [], []⟩).scheduled = [(3000, RecStatus.idle)] := by
  refine ⟨?_, ?_, ?_, ?_⟩ <;> decide

/-- C9 (confirmed): whenever the backend text normalizes to the empty
string, processing the task leaves the transcript, the word count and the
paste log unchanged — the paste/clipboard sink is never invoked. -/
theorem claim_C9_empty_normalization_no_effect
    (t : TranscriptionTask) (s : AppState) (text : String)
    (hb : t.backend = Except.ok text) (hn : normalizeText text = "") :
    (processAudio t s).transcript = s.transcript ∧
    (processAudio t s).wordCount = s.wordCount ∧
    (processAudio t s).pastes = s.pastes := by
  unfold processAudio
  rw [hb]
  by_cases h1 : t.isSegment = true ∧ t.sessionMaxVolume < LOW_VOLUME_THRESHOLD
  · rw [if_pos h1]
    exact ⟨rfl, rfl, rfl⟩
  · rw [if_neg h1]
    simp only [hn]
    by_cases h2 : t.isSegment = true <;> simp [h2]

/-- Witness for C9: a backend text consisting solely of CJK characters
while the Latin-script chain is configured normalizes to the empty
string, and the task contributes nothing. -/
theorem claim_C9_empty_normalization_witness :
    normalizeText "日本語" = "" ∧
    ((processAudio ⟨10, true, 5, Except.ok "日本語"⟩
        ⟨"hi", some 1, RecStatus.recording, [], []⟩).transcript = "hi" ∧
     (processAudio ⟨10, true, 5, Except.ok "日本語"⟩
        ⟨"hi", some 1, RecStatus.recording, [], []⟩).wordCount = some 1 ∧
     (processAudio ⟨10, true, 5, Except.ok "日本語"⟩
        ⟨"hi", some 1, RecStatus.recording, [], []⟩).pastes = []) :=
  ⟨by decide,
   claim_C9_empty_normalization_no_effect _ _ "日本語" rfl (by decide)⟩

/-- C7 (corrected), counterexample: an invocation of `flushSegment` that
passes the re-entrancy, rate-limit and minimum-duration guards, with a
maximum observed RMS of 6 — below `SPEAKING_THRESHOLD = 8`, so the
segment never crossed the speaking threshold — is NOT discarded: the
condition the source tests is `maxVolume < SILENCE_THRESHOLD (5)`
together with `!isSpeaking`, and 6 ≥ 5, so the buffered bytes are kept
and the recorder is stopped to package and enqueue the segment. -/
theorem claim_C7_counterexample :
    (6 : ℚ) < SPEAKING_THRESHOLD ∧
    (flushSegment 2000
        ⟨none, false, 6, [100], 0, 0, 0, false, false, true, true,
          false, 0, 0, 0, [], []⟩).audioChunks = [100] ∧
    (flushSegment 2000
        ⟨none, false, 6, [100], 0, 0, 0, false, false, true, true,
          false, 0, 0, 0, [], []⟩).pendingStop = true ∧
    (flushSegment 2000
        ⟨none, false, 6, [100], 0, 0, 0, false, false, true, true,
          false, 0, 0, 0, [], []⟩).lastFlushTime = 0 := by
  refine ⟨by norm_num [SPEAKING_THRESHOLD], ?_, ?_, ?_⟩ <;> decide

/-- C7 (corrected), amended: for every invocation of the flush routine
that passes the re-entrancy, rate-limit and minimum-duration guards — if
the segment's max observed RMS is below the SILENCE threshold (5.0) and
the VAD is not marked speaking, the buffered bytes are discarded,
`segmentStartTime` and `lastFlushTime` are reset (and `maxVolume`
cleared) and no stop/Segment is produced; otherwise, when the capture
primitive is recording, it is stopped so the segment is packaged and
enqueued. -/
theorem claim_C7_flush_branches (now : ℕ) (s : VadState)
    (h1 : s.isFlushing = false)
    (h2 : ¬ now - s.lastFlushTime < MIN_FLUSH_INTERVAL_MS)
    (h3 : ¬ now - s.segmentStartTime < MIN_SEGMENT_DURATION_MS) :
    (s.maxVolume < SILENCE_THRESHOLD ∧ s.isSpeaking = false →
      flushSegment now s =
        { s with
            audioChunks := [], segmentStartTime := now, lastFlushTime := now,
            maxVolume := 0, flushCalls := s.flushCalls + 1 }) ∧
    (¬ (s.maxVolume < SILENCE_THRESHOLD ∧ s.isSpeaking = false) →
      s.recRecording = true →
      flushSegment now s =
        { s with
            isFlushing := true, isVadTriggered := true, recRecording := false,
            pendingStop := true, stopsInitiated := s.stopsInitiated + 1,
            initTime := now, flushCalls := s.flushCalls + 1 }) :=
  ⟨fun h4 => flushSegment_discard now s h1 h2 h3 h4,
   fun h4 h5 => flushSegment_stop now s h1 h2 h3 h4 h5⟩

/-- C3 (corrected), counterexample: a tick at time 1500 on a segment
whose buffered bytes (6291456) exceed the 5 MiB hard cap, with a chunk
captured, is NOT flushed on that tick: the last flush was at time 1000,
so the safety path's call into `flushSegment` is discarded by the
minimum inter-flush-interval guard (1500 − 1000 < 1000) — the claim says
the hard cap flushes regardless of that guard. -/
theorem claim_C3_counterexample :
    MAX_SEGMENT_SIZE_BYTES < ([6291456] : List ℕ).sum ∧
    (checkVolume 0 1500
        ⟨none, false, 0, [6291456], 1000, 1000, 1000, false, false, true, true,
          false, 0, 0, 0, [], []⟩).pendingStop = false ∧
    (checkVolume 0 1500
        ⟨none, false, 0, [6291456], 1000, 1000, 1000, false, false, true, true,
          false, 0, 0, 0, [], []⟩).stopsInitiated = 0 ∧
    (checkVolume 0 1500
        ⟨none, false, 0, [6291456], 1000, 1000, 1000, false, false, true, true,
          false, 0, 0, 0, [], []⟩).recRecording = true := by
  refine ⟨by decide, ?_, ?_, ?_⟩ <;> decide

/-- C3 (corrected), amended: whenever the accumulated bytes exceed the
hard size cap or the segment age exceeds the hard time cap and at least
one chunk has been captured, the segment is flushed on that analysis tick
even if `isSpeaking` is false and regardless of condition (a) speech
content — but only provided no flush is in progress, the minimum
inter-flush interval (c) and minimum segment duration (b) have also
elapsed, and the recorder is actually recording: the safety path goes
through `flushSegment`, which still applies guards (b) and (c). -/
theorem claim_C3_safety_flush (rms : ℚ) (now : ℕ) (s : VadState)
    (hsp : s.isSpeaking = false)
    (hfl : s.isFlushing = false)
    (hrl : ¬ now - s.lastFlushTime < MIN_FLUSH_INTERVAL_MS)
    (hdur : ¬ now - s.segmentStartTime < MIN_SEGMENT_DURATION_MS)
    (hrec : s.recRecording = true)
    (hne : s.audioChunks ≠ [])
    (hcap : MAX_SEGMENT_SIZE_BYTES < s.audioChunks.sum ∨
            MAX_SEGMENT_DURATION_MS < now - s.segmentStartTime) :
    (checkVolume rms now s).pendingStop = true ∧
    (checkVolume rms now s).stopsInitiated = s.stopsInitiated + 1 ∧
    (checkVolume rms now s).audioChunks = s.audioChunks := by
  have hfire : (MAX_SEGMENT_SIZE_BYTES < s.audioChunks.sum ∨
      MAX_SEGMENT_DURATION_MS < now - s.segmentStartTime) ∧ ¬ s.audioChunks = [] :=
    ⟨hcap, hne⟩
  unfold checkVolume
  by_cases hss : s.silenceStart = none ∨ s.silenceStart = some 0 <;>
    split_ifs <;>
    first
      | (exact absurd ⟨hcap, hne⟩ (by simp_all))
      | (simp [flushSegment, hrl, hdur, hfl, hrec, hsp, hfire, hss])

/-- Witness for C3 at a concrete over-cap state whose guards all pass. -/
theorem claim_C3_safety_flush_witness :
    (checkVolume 0 1500
        ⟨none, false, 0, [6291456], 0, 0, 0, false, false, true, true,
          false, 0, 0, 0, [], []⟩).pendingStop = true ∧
    (checkVolume 0 1500
        ⟨none, false, 0, [6291456], 0, 0, 0, false, false, true, true,
          false, 0, 0, 0, [], []⟩).stopsInitiated = 0 + 1 ∧
    (checkVolume 0 1500
        ⟨none, false, 0, [6291456], 0, 0, 0, false, false, true, true,
          false, 0, 0, 0, [], []⟩).audioChunks = [6291456] :=
  claim_C3_safety_flush 0 1500
    ⟨none, false, 0, [6291456], 0, 0, 0, false, false, true, true,
      false, 0, 0, 0, [], []⟩
    rfl rfl (by decide) (by decide) rfl (by decide) (Or.inl (by decide))

/-- Witness for C7 at a concrete silent-segment state: max RMS 4 (below
the silence threshold), not speaking, all guards passing — the buffer is
discarded and `lastFlushTime` reset. -/
theorem claim_C7_flush_branches_witness :
    (flushSegment 2000
        ⟨none, false, 4, [100], 0, 0, 0, false, false, true, true,
          false, 0, 0, 0, [], []⟩).audioChunks = [] ∧
    (flushSegment 2000
        ⟨none, false, 4, [100], 0, 0, 0, false, false, true, true,
          false, 0, 0, 0, [], []⟩).lastFlushTime = 2000 := by
  have h := (claim_C7_flush_branches 2000
      ⟨none, false, 4, [100], 0, 0, 0, false, false, true, true,
        false, 0, 0, 0, [], []⟩
      (by decide) (by decide) (by decide)).1 (by decide)
  rw [h]
  exact ⟨rfl, rfl⟩


/-- **C6**: (1) for a session trace whose RMS rises above
`SPEAKING_THRESHOLD` once and then stays at or below it, with the silence
timer armed at `u1` and some later frame past `u1 + SILENCE_HANG_MS`
(staying inside the hard size/age caps), exactly one recorder stop is
initiated; (2) in every trace with nondecreasing clocks the completed
VAD flush times are spaced at least `MIN_FLUSH_INTERVAL_MS` apart; and
(3) a flush request arriving within `MIN_FLUSH_INTERVAL_MS` of the last
flush returns without touching the buffered audio or any other state
(only the ghost invocation counter moves), so the buffer is retried on a
later tick rather than dropped. -/
theorem claim_C6_flush_discipline :
    (∀ (t0 tb u1 : ℕ) (b r1 : ℚ) (A C2 : List VEvent),
      1 ≤ t0 →
      framesBelowB SPEAKING_THRESHOLD A = true →
      SPEAKING_THRESHOLD < b →
      ¬ SPEAKING_THRESHOLD < r1 →
      framesBelowB SPEAKING_THRESHOLD C2 = true →
      frameTimesLEB (t0 + MAX_SEGMENT_DURATION_MS)
        (A ++ VEvent.frame b tb :: VEvent.frame r1 u1 :: C2) = true →
      timedMonoB t0 (A ++ VEvent.frame b tb :: VEvent.frame r1 u1 :: C2) = true →
      dataTotal (A ++ VEvent.frame b tb :: VEvent.frame r1 u1 :: C2) ≤
        MAX_SEGMENT_SIZE_BYTES →
      hasLateFrameB u1 C2 = true →
      (runV (initV t0)
        (A ++ VEvent.frame b tb :: VEvent.frame r1 u1 :: C2)).stopsInitiated = 1) ∧
    (∀ (t0 : ℕ) (es : List VEvent),
      timedMonoB t0 es = true →
      List.Chain' (fun a c => a + MIN_FLUSH_INTERVAL_MS ≤ c)
        ((runV (initV t0) es).completions)) ∧
    (∀ (now : ℕ) (s : VadState),
      s.isFlushing = false →
      now - s.lastFlushTime < MIN_FLUSH_INTERVAL_MS →
      flushSegment now s = { s with flushCalls := s.flushCalls + 1 }) := by
  refine ⟨?_, ?_, ?_⟩
  · intro t0 tb u1 b r1 A C2 h1 hA hb hr1 hC ht hm hd hlate
    rw [frameTimesLEB_append, Bool.and_eq_true] at ht
    obtain ⟨htA, htR⟩ := ht
    simp only [frameTimesLEB, List.all_cons, Bool.and_eq_true, decide_eq_true_eq] at htR
    obtain ⟨T2, hT2, hmR⟩ := timedMonoB_split A t0 _ hm
    simp only [timedMonoB, Bool.and_eq_true, decide_eq_true_eq] at hmR
    have hdA : dataTotal A + dataTotal C2 ≤ MAX_SEGMENT_SIZE_BYTES := by
      rw [dataTotal_append] at hd
      have hmid : dataTotal (VEvent.frame b tb :: VEvent.frame r1 u1 :: C2) =
          dataTotal C2 := by
        simp [dataTotal]
      omega
    have hq := runV_quiet t0 A (initV t0) hA htA
      (by
        have h0 : (initV t0).audioChunks.sum = 0 := rfl
        omega)
      rfl rfl rfl rfl
    have hsum1 : (runV (initV t0) A).audioChunks.sum ≤ dataTotal A := by
      have := hq.2.2.2.2.2.2.2.2.2
      have h0 : (initV t0).audioChunks.sum = 0 := rfl
      omega
    have hc1A : ¬ MAX_SEGMENT_SIZE_BYTES < (runV (initV t0) A).audioChunks.sum := by
      omega
    have hc2A : ¬ MAX_SEGMENT_DURATION_MS <
        tb - (runV (initV t0) A).segmentStartTime := by
      rw [hq.2.2.2.1]
      omega
    have hsp := checkVolume_speak b tb (runV (initV t0) A) hb hc1A hc2A
    have hc1B : ¬ MAX_SEGMENT_SIZE_BYTES <
        (checkVolume b tb (runV (initV t0) A)).audioChunks.sum := by
      rw [hsp.2.2.2.2.2.2.1]
      exact hc1A
    have hc2B : ¬ MAX_SEGMENT_DURATION_MS <
        u1 - (checkVolume b tb (runV (initV t0) A)).segmentStartTime := by
      rw [hsp.2.2.2.2.1, hq.2.2.2.1]
      omega
    have hset := checkVolume_silentSet r1 u1 (checkVolume b tb (runV (initV t0) A)) hr1
      (Or.inl hsp.2.1) hc1B hc2B
    have harm := runV_armed t0 u1 C2
      (checkVolume r1 u1 (checkVolume b tb (runV (initV t0) A))) u1
      hC
      (by simpa [frameTimesLEB] using htR.2.2)
      hmR.2.2
      (by omega)
      (by
        rw [hset.2.2.2.2.2.2.1, hsp.2.2.2.2.2.2.1]
        omega)
      (by omega)
      (by omega)
      (hset.1.trans hsp.1)
      hset.2.1
      (hset.2.2.1.trans (hsp.2.2.1.trans hq.2.1))
      (hset.2.2.2.1.trans (hsp.2.2.2.1.trans hq.2.2.1))
      (by rw [hset.2.2.2.2.2.2.2.2.1, hsp.2.2.2.2.2.2.2.2.1, hq.2.2.2.2.2.2.2.2.1]; rfl)
      (by rw [hset.2.2.2.2.2.1, hsp.2.2.2.2.2.1, hq.2.2.2.2.2.2.2.1]; rfl)
      (by rw [hset.2.2.2.2.1, hsp.2.2.2.2.1, hq.2.2.2.1])
      hlate
    have hfinal : runV (initV t0) (A ++ VEvent.frame b tb :: VEvent.frame r1 u1 :: C2) =
        runV (checkVolume r1 u1 (checkVolume b tb (runV (initV t0) A))) C2 := by
      simp only [runV, List.foldl_append, List.foldl_cons, stepV]
    rw [hfinal, harm, hset.2.2.2.2.2.2.2.1, hsp.2.2.2.2.2.2.2.1, hq.2.2.2.2.2.1]
    rfl
  · intro t0 es hm
    exact runV_SpacingInv es (initV t0) t0 hm (by simp [SpacingInv, initV])
  · intro now s h1 h2
    exact flushSegment_rateLimited now s h1 h2

theorem claim_C6_flush_discipline_witness :
    (runV (initV 1)
      [VEvent.frame 9 1, VEvent.frame 0 2, VEvent.frame 0 1100]).stopsInitiated = 1 ∧
    List.Chain' (fun a c => a + MIN_FLUSH_INTERVAL_MS ≤ c)
      ((runV (initV 1) [VEvent.frame 9 1, VEvent.frame 0 2,
        VEvent.frame 0 1100]).completions) ∧
    flushSegment 5 (initV 1) = { initV 1 with flushCalls := (initV 1).flushCalls + 1 } :=
  ⟨claim_C6_flush_discipline.1 1 1 2 9 0 [] [VEvent.frame 0 1100]
      (by decide) (by decide) (by decide) (by decide) (by decide) (by decide) (by decide)
      (by decide) (by decide),
   claim_C6_flush_discipline.2.1 1
      [VEvent.frame 9 1, VEvent.frame 0 2, VEvent.frame 0 1100] (by decide),
   claim_C6_flush_discipline.2.2 5 (initV 1) (by decide) (by decide)⟩

/-- **C8**: the normalization chain (strip non-Latin script characters,
collapse a token repeated three or more times in a row to one occurrence,
trim whitespace) is idempotent: applying it to its own output returns
that output unchanged, for every input string. -/
theorem claim_C8_normalizer_idempotent (s : String) :
    normalizeText (normalizeText s) = normalizeText s :=
  congrArg String.mk (normalizeList_idem s.data)

end Hush
